import Mathlib

/-!
# filefs: a file system synthesised from a listing file

Shallow embedding of `n_tree.c` / `n_tree.h` (the n-ary tree in first-child / next-sibling
form) and of the tree-facing functions of `filefs.c` (`create_entities`, `ffs_getattr`,
`ffs_readdir`, `ffs_read`, `file_exists`, `dir_exists`, `parse_listing_file`).

Conventions of the embedding

* A C string is the list of its `char`s before the terminating NUL (`List Char`, one `Char`
  per C `char`).
* A `node *` is a value of the inductive type `node`: either `node.NULL` or
  `node.mk data child next`.  The tree is owned by its root, so the heap reachable from a
  pointer is the value itself, the `next` chain included.
* A function that mutates the tree returns the mutated value.  A pointer that the C code
  obtains from `get_child` and later writes through is written back with `put_child`.
* `malloc` and `strdup` are taken to succeed.
* `strtok_r` overwrites the delimiter that ends a token with NUL; `strtok_r_str` gives what the
  argument buffer reads as afterwards.
* The scratch arrays `char filepath[2048]` and `char data[2048]` are fixed; `sprintf` beyond
  them, and `memcpy` beyond the formatted string, have no defined behaviour: the functions
  that use them return `none` there.
* `size_t` is 64 bits wide and `off_t` is a signed 64-bit integer.
* `file_exists` and `dir_exists` return a pointer converted to `int`.  Addresses are not part
  of the embedding, so the `int` that a non-null pointer converts to is the parameter `ptr_int`
  of these functions; it is 0 when the low bits of the address that `int` keeps are all zero.
-/

namespace Filefs

/-! ## n_tree.h / n_tree.c -/

/-- Value of a `node *`: `NULL`, or a pointer to a `struct node` with its `data`, `child`
(first child) and `next` (next sibling at the same level). -/
inductive node where
  | NULL : node
  | mk (data : List Char) (child : node) (next : node) : node
  deriving DecidableEq, Repr

/-- Field access `n->data` (the empty string stands in for the access through `NULL`, which
the code never performs). -/
def node.data : node → List Char
  | .NULL => []
  | .mk d _ _ => d

/-- Field access `n->child`. -/
def node.child : node → node
  | .NULL => .NULL
  | .mk _ c _ => c

/-- Field access `n->next`. -/
def node.next : node → node
  | .NULL => .NULL
  | .mk _ _ nx => nx

/-- `new_node(data)`: a fresh node with `next = NULL`, `child = NULL`, `data = strdup(data)`. -/
def new_node (data : List Char) : node :=
  .mk data .NULL .NULL

/-- `add_sibling(n, data)`: walks `n->next` to the last sibling and hangs a new node there.
Returns the chain that starts at `n` after the mutation; the C function returns the pointer to
the new node, which is `new_node data`, the last element of that chain. -/
def add_sibling : node → List Char → node
  | .NULL, _ => .NULL
  | .mk d c .NULL, data => .mk d c (new_node data)
  | .mk d c (.mk d1 c1 n1), data => .mk d c (add_sibling (.mk d1 c1 n1) data)

/-- `add_child(n, data)`: `n` after the mutation.  With children present the new node goes to
the end of the child chain (`add_sibling(n->child, data)`), otherwise it becomes `n->child`.
The C function returns the pointer to the new node `new_node data`. -/
def add_child : node → List Char → node
  | .NULL, _ => .NULL
  | .mk d .NULL nx, data => .mk d (new_node data) nx
  | .mk d (.mk d1 c1 n1) nx, data => .mk d (add_sibling (.mk d1 c1 n1) data) nx

/-- The `while (n)` loop of `get_child`: first node of the chain whose data equals `data`
(`strcmp(n->data, data) == 0`), or `NULL`. -/
def get_child_loop : node → List Char → node
  | .NULL, _ => .NULL
  | .mk d c nx, data => if d = data then .mk d c nx else get_child_loop nx data

/-- `get_child(n, data)`. -/
def get_child : node → List Char → node
  | .NULL, _ => .NULL
  | .mk _ .NULL _, _ => .NULL
  | .mk _ (.mk d1 c1 n1) _, data => get_child_loop (.mk d1 c1 n1) data

/-- One call `strtok_r(str, "/", &saveptr)` (or `strtok_r(NULL, "/", &saveptr)` with `str` the
string at `saveptr`): skips leading delimiters; `none` (`NULL`) when nothing is left; otherwise
the token up to the next delimiter, and the string at the new `saveptr` (just behind that
delimiter, or the empty rest). -/
def strtok_r (str : List Char) : Option (List Char × List Char) :=
  match str.dropWhile (fun c => c == '/') with
  | [] => none
  | c :: cs =>
    some ((c :: cs).takeWhile (fun c => c != '/'),
          ((c :: cs).dropWhile (fun c => c != '/')).drop 1)

/-- What the buffer `str` reads as after `strtok_r(str, "/", &saveptr)`: the delimiter that ends
the first token has been overwritten with NUL, so the string stops there.  Later calls write
behind that NUL and do not change it further. -/
def strtok_r_str (str : List Char) : List Char :=
  match strtok_r str with
  | none => str
  | some (pch, _) => str.takeWhile (fun c => c == '/') ++ pch

/-- The `while (pch != NULL)` loop of `get_node`; the third argument is the result of the last
`strtok_r` call.  The counter bounds the iterations by the length of the path. -/
def get_node_loop : Nat → node → Option (List Char × List Char) → node
  | 0, current_node, _ => current_node
  | _ + 1, current_node, none => current_node
  | fuel + 1, current_node, some (pch, saveptr) =>
    match get_child current_node pch with
    | .NULL => .NULL
    | .mk d c nx => get_node_loop fuel (.mk d c nx) (strtok_r saveptr)

/-- `get_node(root, path)`: the returned pointer. -/
def get_node (root : node) (path : List Char) : node :=
  get_node_loop path.length root (strtok_r path)

/-! ## filefs.c -/

/-- In-place update through a pointer into a sibling chain: the first node of the chain whose
data is `data` (the node a `get_child` call returned) is replaced by `v`, which brings its own
`next`. -/
def put_child_loop : node → List Char → node → node
  | .NULL, _, _ => .NULL
  | .mk d c nx, data, v => if d = data then v else .mk d c (put_child_loop nx data v)

/-- In-place update of the child of `n` that `get_child n data` points to. -/
def put_child : node → List Char → node → node
  | .NULL, _, _ => .NULL
  | .mk d c nx, data, v => .mk d (put_child_loop c data v) nx

/-- The `while (pch != NULL)` loop of `create_entities`, started with `current_node`: returns
`current_node` after all mutations below it.  When `get_child` finds the segment, the loop goes
on in that child; otherwise `add_child` appends a new node and the loop goes on in the new node
(the last child, which is then the one `get_child` finds). -/
def create_entities_loop : Nat → node → Option (List Char × List Char) → node
  | 0, current_node, _ => current_node
  | _ + 1, current_node, none => current_node
  | fuel + 1, current_node, some (pch, saveptr) =>
    match get_child current_node pch with
    | .NULL =>
      put_child (add_child current_node pch) pch
        (create_entities_loop fuel (new_node pch) (strtok_r saveptr))
    | .mk d c nx =>
      put_child current_node pch (create_entities_loop fuel (.mk d c nx) (strtok_r saveptr))

/-- `create_entities(path)` on the tree `fs_root`: the tree afterwards. -/
def create_entities (fs_root : node) (path : List Char) : node :=
  create_entities_loop path.length fs_root (strtok_r path)

/-- The body of the `getline` loop of `parse_listing_file`: removes one trailing newline. -/
def chomp (line : List Char) : List Char :=
  if line.getLast? = some '\n' then line.dropLast else line

/-- `parse_listing_file`: every record read by `getline` is chomped and handed to
`create_entities`. -/
def parse_listing_file (fs_root : node) (records : List (List Char)) : node :=
  records.foldl (fun root line => create_entities root (chomp line)) fs_root

/-- The tree `main` builds: `fs_root = new_node("/")`, then `create_entities` for every path of
the listing, in order. -/
def ingest (listing : List (List Char)) : node :=
  listing.foldl create_entities (new_node ['/'])

/-- `ENOENT` of `errno.h`. -/
def ENOENT : Int := 2

/-- `ENOTDIR` of `errno.h`. -/
def ENOTDIR : Int := 20

/-- `S_IFDIR` of `sys/stat.h`. -/
def S_IFDIR : Nat := 0o040000

/-- `S_IFREG` of `sys/stat.h`. -/
def S_IFREG : Nat := 0o100000

/-- The fields of `struct stat` that `ffs_getattr` writes. -/
structure stat where
  st_ino : Nat
  st_mode : Nat
  st_nlink : Nat
  st_size : Nat
  deriving DecidableEq, Repr

/-- `ffs_getattr(path, stbuf, fi)`: the return value and `*stbuf` afterwards.  `path_len` is
taken before `get_node` cuts the string. -/
def ffs_getattr (fs_root : node) (listing_file : List Char) (path : List Char) (stbuf : stat) :
    Int × stat :=
  let path_len := path.length
  match get_node fs_root path with
  | .NULL => (-ENOENT, stbuf)
  | .mk _ (.mk _ _ _) _ =>
    (0, { stbuf with st_ino := 1, st_mode := S_IFDIR ||| 0o755, st_nlink := 1 })
  | .mk _ .NULL _ =>
    (0, { stbuf with st_ino := 2, st_mode := S_IFREG ||| 0o444, st_nlink := 1,
                     st_size := path_len + listing_file.length + " is in ".length })

/-- The `while (n)` loop of `ffs_readdir` over the child chain: the `(name, stat)` pairs handed
to `filler`, or `none` when `sprintf` overruns `filepath[2048]`.  `path` is the string the
buffer holds after `get_node` ran over it; `file_stat` is carried from one round to the next. -/
def ffs_readdir_loop (fs_root : node) (listing_file : List Char) (path : List Char) :
    node → stat → Option (List (List Char × stat))
  | .NULL, _ => some []
  | .mk d _ nx, file_stat =>
    let filepath := path ++ '/' :: d
    if 2048 ≤ filepath.length then none
    else
      let st := (ffs_getattr fs_root listing_file filepath file_stat).2
      match ffs_readdir_loop fs_root listing_file path nx st with
      | none => none
      | some rest => some ((d, st) :: rest)

/-- `ffs_readdir(path, buf, filler, ...)`: the return value and the entries handed to `filler`,
or `none` for undefined behaviour.  `file_stat` is the indeterminate initial content of the
local `struct stat`. -/
def ffs_readdir (fs_root : node) (listing_file : List Char) (path : List Char)
    (file_stat : stat) : Option (Int × List (List Char × stat)) :=
  match get_node fs_root path with
  | .NULL => some (-ENOTDIR, [])
  | .mk _ .NULL _ => some (-ENOTDIR, [])
  | .mk _ (.mk d c nx) _ =>
    match ffs_readdir_loop fs_root listing_file (strtok_r_str path) (.mk d c nx) file_stat with
    | none => none
    | some entries => some (0, entries)

/-- `file_exists(path)`: the pointer that `get_node` returns, converted to `int`.  `NULL`
converts to 0; `ptr_int` is the `int` the pointer to the found node converts to. -/
def file_exists (ptr_int : Int) (fs_root : node) (path : List Char) : Int :=
  match get_node fs_root path with
  | .NULL => 0
  | .mk _ _ _ => ptr_int

/-- `dir_exists(path)`: 0 when the node is missing, otherwise `n->child` converted to `int`:
0 for a node without children, and `ptr_int` for the pointer to its first child. -/
def dir_exists (ptr_int : Int) (fs_root : node) (path : List Char) : Int :=
  match get_node fs_root path with
  | .NULL => 0
  | .mk _ .NULL _ => 0
  | .mk _ (.mk _ _ _) _ => ptr_int

/-- `ffs_read(path, buf, size, offset, fi)`: the return value and the bytes copied to `buf`, or
`none` for undefined behaviour (`sprintf` beyond `data[2048]`, `memcpy` beyond the string).
`offset` is an `off_t`; the comparisons with the `size_t` values convert it to unsigned, and
`offset + size` wraps at `2^64`.  `ptr_int` is the `int` that `file_exists` obtains from the
pointer to the node of `path`. -/
def ffs_read (ptr_int : Int) (fs_root : node) (listing_file : List Char) (path : List Char)
    (size : Nat) (offset : Int) : Option (Int × List Char) :=
  let data := path ++ " is in ".toList ++ listing_file
  if 2048 ≤ data.length then none
  else
    let len := data.length
    if file_exists ptr_int fs_root path = 0 then some (-ENOENT, [])
    else
      let uoffset := (offset % 2 ^ 64).toNat
      if uoffset < len then
        let size1 := if (uoffset + size) % 2 ^ 64 > len then len - uoffset else size
        if 2048 < uoffset + size1 then none
        else some ((size1 : Int), (data.drop uoffset).take size1)
      else some (0, [])

/-! ## Segments and the segment-wise form of the two loops -/

/-- The tokens that the repeated `strtok_r` calls of `get_node` and `create_entities` hand out,
with the same counter as the loops. -/
def tokens_loop : Nat → Option (List Char × List Char) → List (List Char)
  | 0, _ => []
  | _ + 1, none => []
  | fuel + 1, some (pch, saveptr) => pch :: tokens_loop fuel (strtok_r saveptr)

/-- The segments of a path: all tokens `strtok_r` finds in it. -/
def tokens (path : List Char) : List (List Char) :=
  tokens_loop path.length (strtok_r path)

/-- The loop of `get_node` over a list of segments. -/
def get_node_toks : node → List (List Char) → node
  | current_node, [] => current_node
  | current_node, pch :: rest =>
    match get_child current_node pch with
    | .NULL => .NULL
    | .mk d c nx => get_node_toks (.mk d c nx) rest

/-- The loop of `create_entities` over a list of segments. -/
def create_toks : node → List (List Char) → node
  | current_node, [] => current_node
  | current_node, pch :: rest =>
    match get_child current_node pch with
    | .NULL => put_child (add_child current_node pch) pch (create_toks (new_node pch) rest)
    | .mk d c nx => put_child current_node pch (create_toks (.mk d c nx) rest)

/-- What one round of `create_entities` does to a child chain: the first node named `pch` takes
the remaining segments, and when there is none a new node is appended and takes them. -/
def ins_chain : node → List Char → List (List Char) → node
  | .NULL, pch, rest => create_toks (new_node pch) rest
  | .mk d c nx, pch, rest =>
    if d = pch then create_toks (.mk d c nx) rest else .mk d c (ins_chain nx pch rest)

/-- A sibling chain with a new node hung behind its last element: what `add_sibling` leaves
behind, and `new_node data` for the empty chain. -/
def snoc : node → List Char → node
  | .NULL, data => new_node data
  | .mk d c nx, data => .mk d c (snoc nx data)

/-- The data of the nodes of a sibling chain, in chain order: the names `ffs_readdir` walks
over. -/
def names : node → List (List Char)
  | .NULL => []
  | .mk d _ nx => d :: names nx

/-- No two children of one parent share a name, at this node and at every node below it and
behind it in its chain. -/
def sibling_unique : node → Prop
  | .NULL => True
  | .mk _ c nx => (names c).Nodup ∧ sibling_unique c ∧ sibling_unique nx

/-- `sibling_unique` can be computed. -/
instance sibling_unique_decidable : (n : node) → Decidable (sibling_unique n)
  | .NULL => isTrue trivial
  | .mk _ c nx =>
    have := sibling_unique_decidable c
    have := sibling_unique_decidable nx
    inferInstanceAs (Decidable ((names c).Nodup ∧ sibling_unique c ∧ sibling_unique nx))

/-- Reading of an `ffs_getattr` result: a directory. -/
def is_Directory (r : Int × stat) : Prop :=
  r.1 = 0 ∧ r.2.st_mode = S_IFDIR ||| 0o755

/-- Reading of an `ffs_getattr` result: a regular file. -/
def is_File (r : Int × stat) : Prop :=
  r.1 = 0 ∧ r.2.st_mode = S_IFREG ||| 0o444

/-- Reading of an `ffs_getattr` result: no such entry. -/
def is_NotFound (r : Int × stat) : Prop :=
  r.1 = -ENOENT

instance (r : Int × stat) : Decidable (is_Directory r) :=
  inferInstanceAs (Decidable (r.1 = 0 ∧ r.2.st_mode = S_IFDIR ||| 0o755))

instance (r : Int × stat) : Decidable (is_File r) :=
  inferInstanceAs (Decidable (r.1 = 0 ∧ r.2.st_mode = S_IFREG ||| 0o444))

instance (r : Int × stat) : Decidable (is_NotFound r) :=
  inferInstanceAs (Decidable (r.1 = -ENOENT))

/-- The non-empty `/`-separated segments of a path, in the words of the specification: the
path is split at every `/` and the empty pieces are discarded. -/
def segments (path : List Char) : List (List Char) :=
  (path.splitOn '/').filter (fun s => !s.isEmpty)

/-- Every node of the chain, and every node below such a node, carries a name that is
non-empty and free of `/`. -/
def names_ok : node → Prop
  | .NULL => True
  | .mk d c nx => (d ≠ [] ∧ '/' ∉ d) ∧ names_ok c ∧ names_ok nx

/-- `names_ok` can be computed. -/
instance names_ok_decidable : (n : node) → Decidable (names_ok n)
  | .NULL => isTrue trivial
  | .mk d c nx =>
    have := names_ok_decidable c
    have := names_ok_decidable nx
    inferInstanceAs (Decidable ((d ≠ [] ∧ '/' ∉ d) ∧ names_ok c ∧ names_ok nx))

/-- The segment that follows the segments `ds` in `ts`, when `ts` strictly extends `ds`. -/
def next_segment (ds ts : List (List Char)) : Option (List Char) :=
  if ds <+: ts then ts.get? ds.length else none

/-- A list of names with one more name seen: a name already present leaves the list as it is,
a new name goes to the end. -/
def add_first_seen (l : List (List Char)) : Option (List Char) → List (List Char)
  | none => l
  | some x => if x ∈ l then l else l ++ [x]

/-- The names of a list in the order of their first occurrence, every name once. -/
def first_seen (l : List (List Char)) : List (List Char) :=
  l.foldl (fun acc x => add_first_seen acc (some x)) []

/-- In listing order, the segment that follows the segments of `d` in each path of the listing
that strictly extends `d`. -/
def following (listing : List (List Char)) (d : List Char) : List (List Char) :=
  listing.filterMap (fun p => next_segment (segments d) (segments p))

/-! ## The tokeniser -/

theorem strtok_r_length (s pch saveptr : List Char) (h : strtok_r s = some (pch, saveptr)) :
    saveptr.length < s.length := by
  unfold strtok_r at h
  have hle := (List.dropWhile_sublist (fun c => c == '/') (l := s)).length_le
  split at h
  · exact absurd h (by simp)
  · rename_i c cs hd
    simp only [Option.some.injEq, Prod.mk.injEq] at h
    have h2 := (List.dropWhile_sublist (fun c => c != '/') (l := c :: cs)).length_le
    rw [hd] at hle
    rw [← h.2, List.length_drop]
    simp only [List.length_cons] at hle h2 ⊢
    omega

theorem tokens_loop_stable (f1 : Nat) :
    ∀ (f2 : Nat) (st : Option (List Char × List Char)),
      (∀ pch saveptr, st = some (pch, saveptr) → saveptr.length < f1) → f1 ≤ f2 →
      tokens_loop f2 st = tokens_loop f1 st := by
  induction f1 with
  | zero =>
    intro f2 st h _
    cases st with
    | none => cases f2 <;> rfl
    | some ps => exact absurd (h ps.1 ps.2 rfl) (by omega)
  | succ f1 ih =>
    intro f2 st h hle
    obtain ⟨g, rfl⟩ : ∃ g, f2 = g + 1 := ⟨f2 - 1, by omega⟩
    cases st with
    | none => rfl
    | some ps =>
      obtain ⟨pch, saveptr⟩ := ps
      simp only [tokens_loop]
      congr 1
      apply ih
      · intro p2 s2 h2
        have := strtok_r_length _ _ _ h2
        have := h pch saveptr rfl
        omega
      · omega

theorem tokens_of_none (s : List Char) (h : strtok_r s = none) : tokens s = [] := by
  unfold tokens
  rw [h]
  cases s.length <;> rfl

theorem tokens_of_some (s pch saveptr : List Char) (h : strtok_r s = some (pch, saveptr)) :
    tokens s = pch :: tokens saveptr := by
  have hlen := strtok_r_length _ _ _ h
  unfold tokens
  rw [h]
  obtain ⟨g, hg⟩ : ∃ g, s.length = g + 1 := ⟨s.length - 1, by omega⟩
  rw [hg]
  simp only [tokens_loop]
  congr 1
  apply tokens_loop_stable
  · intro p2 s2 h2
    exact strtok_r_length _ _ _ h2
  · omega

theorem get_node_loop_eq (fuel : Nat) :
    ∀ (n : node) (st : Option (List Char × List Char)),
      get_node_loop fuel n st = get_node_toks n (tokens_loop fuel st) := by
  induction fuel with
  | zero => intro n st; rfl
  | succ fuel ih =>
    intro n st
    cases st with
    | none => rfl
    | some ps =>
      obtain ⟨pch, saveptr⟩ := ps
      simp only [get_node_loop, tokens_loop, get_node_toks]
      cases get_child n pch with
      | NULL => rfl
      | mk d c nx => exact ih _ _

theorem get_node_eq (root : node) (path : List Char) :
    get_node root path = get_node_toks root (tokens path) :=
  get_node_loop_eq _ _ _

theorem create_entities_loop_eq (fuel : Nat) :
    ∀ (n : node) (st : Option (List Char × List Char)),
      create_entities_loop fuel n st = create_toks n (tokens_loop fuel st) := by
  induction fuel with
  | zero => intro n st; rfl
  | succ fuel ih =>
    intro n st
    cases st with
    | none => rfl
    | some ps =>
      obtain ⟨pch, saveptr⟩ := ps
      simp only [create_entities_loop, tokens_loop, create_toks]
      cases get_child n pch with
      | NULL => simp only [ih]
      | mk d c nx => simp only [ih]

theorem create_entities_eq (fs_root : node) (path : List Char) :
    create_entities fs_root path = create_toks fs_root (tokens path) :=
  create_entities_loop_eq _ _ _

/-! ## The tree functions in chain form -/

theorem get_child_eq (n : node) (t : List Char) : get_child n t = get_child_loop n.child t := by
  cases n with
  | NULL => rfl
  | mk d c nx => cases c <;> rfl

theorem add_sibling_eq (d : List Char) (c nx : node) (t : List Char) :
    add_sibling (.mk d c nx) t = snoc (.mk d c nx) t := by
  induction nx generalizing d c with
  | NULL => rfl
  | mk d1 c1 n1 _ ih => simp only [add_sibling, snoc, ih]

theorem add_child_eq (d : List Char) (c nx : node) (t : List Char) :
    add_child (.mk d c nx) t = .mk d (snoc c t) nx := by
  cases c with
  | NULL => rfl
  | mk d1 c1 n1 => simp only [add_child, add_sibling_eq]

theorem get_node_toks_NULL (us : List (List Char)) : get_node_toks .NULL us = .NULL := by
  cases us <;> rfl

theorem get_node_toks_cons (n : node) (u : List Char) (us : List (List Char)) :
    get_node_toks n (u :: us) = get_node_toks (get_child_loop n.child u) us := by
  rw [← get_child_eq]
  simp only [get_node_toks]
  cases get_child n u with
  | NULL => exact (get_node_toks_NULL us).symm
  | mk d c nx => rfl

theorem put_new (t : List Char) (ts : List (List Char)) :
    ∀ c : node, get_child_loop c t = .NULL →
      put_child_loop (snoc c t) t (create_toks (new_node t) ts) = ins_chain c t ts := by
  intro c
  induction c with
  | NULL => intro _; simp [snoc, new_node, put_child_loop, ins_chain]
  | mk d c1 n1 _ ih =>
    intro h
    have hd : d ≠ t := by
      intro hd
      simp [get_child_loop, hd] at h
    have h1 : get_child_loop n1 t = .NULL := by
      simpa [get_child_loop, hd] using h
    simp [snoc, put_child_loop, ins_chain, hd, ih h1]

theorem put_found (t : List Char) (ts : List (List Char)) :
    ∀ c : node, get_child_loop c t ≠ .NULL →
      put_child_loop c t (create_toks (get_child_loop c t) ts) = ins_chain c t ts := by
  intro c
  induction c with
  | NULL => intro h; exact absurd rfl h
  | mk d c1 n1 _ ih =>
    intro h
    by_cases hd : d = t
    · simp [get_child_loop, put_child_loop, ins_chain, hd]
    · have h1 : get_child_loop n1 t ≠ .NULL := by
        simpa [get_child_loop, hd] using h
      simp [get_child_loop, put_child_loop, ins_chain, hd, ih h1]

theorem create_toks_cons (d : List Char) (c nx : node) (t : List Char) (ts : List (List Char)) :
    create_toks (.mk d c nx) (t :: ts) = .mk d (ins_chain c t ts) nx := by
  simp only [create_toks]
  rw [get_child_eq]
  simp only [node.child]
  cases h : get_child_loop c t with
  | NULL =>
    simp only [add_child_eq, put_child]
    rw [put_new t ts c h]
  | mk d1 c1 n1 =>
    simp only [put_child]
    rw [← h, put_found t ts c (by rw [h]; simp)]

theorem create_toks_NULL (ts : List (List Char)) : create_toks .NULL ts = .NULL := by
  cases ts <;> rfl

theorem create_toks_mk (d : List Char) (c nx : node) (ts : List (List Char)) :
    ∃ c1, create_toks (.mk d c nx) ts = .mk d c1 nx := by
  cases ts with
  | nil => exact ⟨c, rfl⟩
  | cons t ts => exact ⟨_, create_toks_cons d c nx t ts⟩

/-! ## Resolution after insertion -/

theorem get_node_toks_leaf (d : List Char) (nx : node) (us : List (List Char)) :
    get_node_toks (.mk d .NULL nx) us ≠ .NULL ↔ us = [] := by
  cases us with
  | nil => simp [get_node_toks]
  | cons u us => simp [get_node_toks_cons, node.child, get_child_loop, get_node_toks_NULL]

theorem get_node_toks_congr (a b : node) (us : List (List Char)) (hc : a.child = b.child)
    (ha : a ≠ .NULL) (hb : b ≠ .NULL) :
    (get_node_toks a us ≠ .NULL ↔ get_node_toks b us ≠ .NULL) ∧
      (get_node_toks a us).child = (get_node_toks b us).child := by
  cases us with
  | nil => simp [get_node_toks, ha, hb, hc]
  | cons u us => simp [get_node_toks_cons, hc]

theorem resolves_create (ts : List (List Char)) :
    ∀ (n : node) (us : List (List Char)), n ≠ .NULL →
      (get_node_toks (create_toks n ts) us ≠ .NULL ↔
        get_node_toks n us ≠ .NULL ∨ us <+: ts) := by
  induction ts with
  | nil =>
    intro n us hn
    simp only [create_toks, List.prefix_nil]
    constructor
    · exact Or.inl
    · rintro (h | rfl)
      · exact h
      · exact hn
  | cons t ts ih =>
    intro n us hn
    cases n with
    | NULL => exact absurd rfl hn
    | mk d c nx =>
      rw [create_toks_cons]
      cases us with
      | nil => simp [get_node_toks]
      | cons u us =>
        simp only [get_node_toks_cons, node.child, List.cons_prefix_cons]
        clear hn
        induction c with
        | NULL =>
          obtain ⟨c1, hc1⟩ := create_toks_mk t .NULL .NULL ts
          have h0 := ih (new_node t) us (by simp [new_node])
          rw [show get_node_toks (new_node t) us ≠ .NULL ↔ us = [] from
            get_node_toks_leaf t .NULL us] at h0
          simp only [ins_chain]
          simp only [new_node] at h0 ⊢
          by_cases htu : t = u
          · subst htu
            rw [hc1] at h0 ⊢
            simp only [get_child_loop, if_true, get_node_toks_NULL, ne_eq, not_true_eq_false,
              false_or, true_and]
            refine h0.trans ⟨?_, Or.inr⟩
            rintro (rfl | h)
            · exact List.nil_prefix
            · exact h
          · rw [hc1]
            have hut : ¬ u = t := fun h => htu h.symm
            simp [get_child_loop, htu, hut, get_node_toks_NULL]
        | mk d1 c1 n1 _ ih1 =>
          simp only [ins_chain]
          by_cases hdt : d1 = t
          · subst hdt
            obtain ⟨c2, hc2⟩ := create_toks_mk d1 c1 n1 ts
            have h0 := ih (.mk d1 c1 n1) us (by simp)
            simp only [if_true]
            by_cases hdu : d1 = u
            · subst hdu
              rw [hc2] at h0 ⊢
              simpa [get_child_loop] using h0
            · rw [hc2]
              have hud : ¬ u = d1 := fun h => hdu h.symm
              simp [get_child_loop, hdu, hud]
          · simp only [hdt, if_false]
            by_cases hdu : d1 = u
            · subst hdu
              have hut : ¬ d1 = t := hdt
              have := (get_node_toks_congr (.mk d1 c1 (ins_chain n1 t ts)) (.mk d1 c1 n1) us
                rfl (by simp) (by simp)).1
              simp [get_child_loop, hut, this]
            · simpa [get_child_loop, hdu] using ih1

theorem get_node_create_append (ts us : List (List Char)) :
    ∀ n : node, get_node_toks n ts ≠ .NULL →
      get_node_toks (create_toks n (ts ++ us)) ts = create_toks (get_node_toks n ts) us := by
  induction ts with
  | nil => intro n _; rfl
  | cons t ts ih =>
    intro n hn
    cases n with
    | NULL => exact absurd (get_node_toks_NULL _) hn
    | mk d c nx =>
      rw [List.cons_append, create_toks_cons]
      simp only [get_node_toks_cons, node.child] at hn ⊢
      induction c with
      | NULL => exact absurd (get_node_toks_NULL _) hn
      | mk d1 c1 n1 _ ih1 =>
        simp only [ins_chain]
        by_cases hdt : d1 = t
        · subst hdt
          obtain ⟨c2, hc2⟩ := create_toks_mk d1 c1 n1 (ts ++ us)
          simp only [get_child_loop, if_true] at hn ⊢
          have := ih (.mk d1 c1 n1) hn
          rw [hc2] at this ⊢
          simpa [get_child_loop] using this
        · simp only [get_child_loop, hdt, if_false] at hn ⊢
          exact ih1 hn

theorem get_node_create_leaf (ts : List (List Char)) :
    ∀ (d : List Char) (nx : node),
      get_node_toks (create_toks (.mk d .NULL nx) ts) ts ≠ .NULL ∧
        (get_node_toks (create_toks (.mk d .NULL nx) ts) ts).child = .NULL := by
  induction ts with
  | nil => intro d nx; simp [create_toks, get_node_toks, node.child]
  | cons t ts ih =>
    intro d nx
    obtain ⟨c1, hc1⟩ := create_toks_mk t .NULL .NULL ts
    have := ih t .NULL
    rw [create_toks_cons]
    simp only [get_node_toks_cons, node.child, ins_chain, new_node]
    rw [hc1] at this ⊢
    simpa [get_child_loop] using this

theorem create_toks_idem (ts : List (List Char)) :
    ∀ n : node, create_toks (create_toks n ts) ts = create_toks n ts := by
  induction ts with
  | nil => intro n; rfl
  | cons t ts ih =>
    intro n
    cases n with
    | NULL => rfl
    | mk d c nx =>
      rw [create_toks_cons, create_toks_cons]
      congr 1
      induction c with
      | NULL =>
        obtain ⟨c1, hc1⟩ := create_toks_mk t .NULL .NULL ts
        have := ih (new_node t)
        simp only [ins_chain, new_node] at this ⊢
        rw [hc1] at this ⊢
        simpa [ins_chain] using this
      | mk d1 c1 n1 _ ih1 =>
        simp only [ins_chain]
        by_cases hdt : d1 = t
        · subst hdt
          obtain ⟨c2, hc2⟩ := create_toks_mk d1 c1 n1 ts
          have := ih (.mk d1 c1 n1)
          simp only [if_true]
          rw [hc2] at this ⊢
          simpa [ins_chain] using this
        · simp [hdt, ins_chain, ih1]

/-! ## Ingestion of a listing -/

theorem foldl_create_mk (listing : List (List Char)) :
    ∀ (d : List Char) (c nx : node),
      ∃ c1, listing.foldl create_entities (.mk d c nx) = .mk d c1 nx := by
  induction listing with
  | nil => intro d c nx; exact ⟨c, rfl⟩
  | cons p listing ih =>
    intro d c nx
    obtain ⟨c1, hc1⟩ := create_toks_mk d c nx (tokens p)
    simp only [List.foldl_cons, create_entities_eq, hc1]
    exact ih d c1 nx

theorem ingest_mk (listing : List (List Char)) :
    ∃ c, ingest listing = .mk ['/'] c .NULL :=
  foldl_create_mk listing ['/'] .NULL .NULL

theorem ingest_ne_NULL (listing : List (List Char)) : ingest listing ≠ .NULL := by
  obtain ⟨c, hc⟩ := ingest_mk listing
  simp [hc]

theorem resolves_foldl (listing : List (List Char)) :
    ∀ (root : node) (us : List (List Char)), root ≠ .NULL →
      (get_node_toks (listing.foldl create_entities root) us ≠ .NULL ↔
        get_node_toks root us ≠ .NULL ∨ ∃ p ∈ listing, us <+: tokens p) := by
  induction listing with
  | nil => intro root us _; simp
  | cons p listing ih =>
    intro root us hroot
    have hne : create_entities root p ≠ .NULL := by
      cases root with
      | NULL => exact absurd rfl hroot
      | mk d c nx =>
        obtain ⟨c1, hc1⟩ := create_toks_mk d c nx (tokens p)
        simp [create_entities_eq, hc1]
    rw [List.foldl_cons, ih _ us hne, create_entities_eq, resolves_create _ _ _ hroot]
    simp only [List.mem_cons, exists_eq_or_imp, or_assoc]

theorem resolves_ingest (listing : List (List Char)) (us : List (List Char)) :
    get_node_toks (ingest listing) us ≠ .NULL ↔ us = [] ∨ ∃ p ∈ listing, us <+: tokens p := by
  unfold ingest
  rw [resolves_foldl listing _ us (by simp [new_node])]
  simp only [new_node, get_node_toks_leaf]

/-! ## Reading of the `ffs_getattr` result -/

theorem is_Directory_iff (fs_root : node) (listing_file path : List Char) (stbuf : stat) :
    is_Directory (ffs_getattr fs_root listing_file path stbuf) ↔
      (get_node fs_root path).child ≠ .NULL := by
  unfold ffs_getattr is_Directory
  cases get_node fs_root path with
  | NULL => simp [node.child, ENOENT]
  | mk d c nx =>
    cases c with
    | NULL => simp [node.child, S_IFDIR, S_IFREG]
    | mk d1 c1 n1 => simp [node.child]

theorem is_File_iff (fs_root : node) (listing_file path : List Char) (stbuf : stat) :
    is_File (ffs_getattr fs_root listing_file path stbuf) ↔
      get_node fs_root path ≠ .NULL ∧ (get_node fs_root path).child = .NULL := by
  unfold ffs_getattr is_File
  cases get_node fs_root path with
  | NULL => simp [ENOENT]
  | mk d c nx =>
    cases c with
    | NULL => simp [node.child]
    | mk d1 c1 n1 => simp [node.child, S_IFDIR, S_IFREG]

theorem is_NotFound_iff (fs_root : node) (listing_file path : List Char) (stbuf : stat) :
    is_NotFound (ffs_getattr fs_root listing_file path stbuf) ↔
      get_node fs_root path = .NULL := by
  unfold ffs_getattr is_NotFound
  cases get_node fs_root path with
  | NULL => simp
  | mk d c nx =>
    cases c with
    | NULL => simp [ENOENT]
    | mk d1 c1 n1 => simp [ENOENT]

/-! ## `ffs_readdir` -/

theorem ffs_readdir_loop_some (fs_root : node) (listing_file path : List Char) :
    ∀ (c : node) (file_stat : stat),
      (∀ d ∈ names c, (path ++ '/' :: d).length < 2048) →
      ∃ es, ffs_readdir_loop fs_root listing_file path c file_stat = some es ∧
        es.map Prod.fst = names c := by
  intro c
  induction c with
  | NULL => intro _ _; exact ⟨[], rfl, rfl⟩
  | mk d c1 nx _ ih =>
    intro file_stat h
    have hd : ¬ 2048 ≤ (path ++ '/' :: d).length := by
      have := h d (by simp [names])
      omega
    obtain ⟨es, hes, hn⟩ := ih (ffs_getattr fs_root listing_file (path ++ '/' :: d) file_stat).2
      (fun e he => h e (by simp [names, he]))
    refine ⟨(d, (ffs_getattr fs_root listing_file (path ++ '/' :: d) file_stat).2) :: es, ?_, ?_⟩
    · simp only [ffs_readdir_loop, hd, if_false, hes]
    · simp [names, hn]

theorem ffs_readdir_loop_none (fs_root : node) (listing_file path : List Char) :
    ∀ (c : node) (file_stat : stat),
      (∃ d ∈ names c, 2048 ≤ (path ++ '/' :: d).length) →
      ffs_readdir_loop fs_root listing_file path c file_stat = none := by
  intro c
  induction c with
  | NULL => intro _ h; simp [names] at h
  | mk d c1 nx _ ih =>
    intro file_stat h
    by_cases hd : 2048 ≤ (path ++ '/' :: d).length
    · simp only [ffs_readdir_loop, hd, if_true]
    · have h1 : ∃ e ∈ names nx, 2048 ≤ (path ++ '/' :: e).length := by
        obtain ⟨e, he, hlen⟩ := h
        simp only [names, List.mem_cons] at he
        rcases he with rfl | he
        · exact absurd hlen hd
        · exact ⟨e, he, hlen⟩
      simp only [ffs_readdir_loop, hd, if_false, ih _ h1]

theorem ffs_readdir_not_dir (fs_root : node) (listing_file path : List Char) (file_stat : stat)
    (h : (get_node fs_root path).child = .NULL) :
    ffs_readdir fs_root listing_file path file_stat = some (-ENOTDIR, []) := by
  unfold ffs_readdir
  cases hn : get_node fs_root path with
  | NULL => rfl
  | mk d c nx =>
    rw [hn] at h
    simp only [node.child] at h
    subst h
    rfl

theorem ffs_readdir_dir (fs_root : node) (listing_file path : List Char) (file_stat : stat)
    (h : (get_node fs_root path).child ≠ .NULL)
    (hfit : ∀ d ∈ names (get_node fs_root path).child,
      (strtok_r_str path ++ '/' :: d).length < 2048) :
    ∃ es, ffs_readdir fs_root listing_file path file_stat = some (0, es) ∧
      es.map Prod.fst = names (get_node fs_root path).child := by
  unfold ffs_readdir
  cases hn : get_node fs_root path with
  | NULL => rw [hn] at h; exact absurd rfl h
  | mk d c nx =>
    rw [hn] at h hfit
    simp only [node.child] at h hfit
    cases c with
    | NULL => exact absurd rfl h
    | mk d1 c1 n1 =>
      obtain ⟨es, hes, hnames⟩ := ffs_readdir_loop_some fs_root listing_file (strtok_r_str path)
        (.mk d1 c1 n1) file_stat hfit
      exact ⟨es, by simp only [hes], by simpa [node.child] using hnames⟩

theorem ffs_readdir_overrun (fs_root : node) (listing_file path : List Char) (file_stat : stat)
    (hfit : ∃ d ∈ names (get_node fs_root path).child,
      2048 ≤ (strtok_r_str path ++ '/' :: d).length) :
    ffs_readdir fs_root listing_file path file_stat = none := by
  unfold ffs_readdir
  cases hn : get_node fs_root path with
  | NULL => rw [hn] at hfit; simp [node.child, names] at hfit
  | mk d c nx =>
    rw [hn] at hfit
    simp only [node.child] at hfit
    cases c with
    | NULL => simp [names] at hfit
    | mk d1 c1 n1 =>
      simp only [ffs_readdir_loop_none fs_root listing_file (strtok_r_str path)
        (.mk d1 c1 n1) file_stat hfit]

/-! ## Segments of a path that ends in `/x` -/

theorem strtok_r_slash (s : List Char) : strtok_r ('/' :: s) = strtok_r s := by
  simp [strtok_r, List.dropWhile_cons]

theorem strtok_r_cons (c : Char) (s : List Char) (hc : c ≠ '/') :
    strtok_r (c :: s) =
      some (c :: s.takeWhile (fun c => c != '/'), (s.dropWhile (fun c => c != '/')).drop 1) := by
  simp [strtok_r, List.dropWhile_cons, List.takeWhile_cons, hc]

theorem tokens_nil : tokens [] = [] := rfl

theorem tokens_slash (s : List Char) : tokens ('/' :: s) = tokens s := by
  cases h : strtok_r s with
  | none => rw [tokens_of_none _ h, tokens_of_none _ (by rw [strtok_r_slash, h])]
  | some ps =>
    obtain ⟨pch, saveptr⟩ := ps
    rw [tokens_of_some _ _ _ h, tokens_of_some _ _ _ (by rw [strtok_r_slash, h])]

theorem tokens_cons (c : Char) (s : List Char) (hc : c ≠ '/') :
    tokens (c :: s) = (c :: s.takeWhile (fun c => c != '/')) ::
      tokens ((s.dropWhile (fun c => c != '/')).drop 1) :=
  tokens_of_some _ _ _ (strtok_r_cons c s hc)

theorem takeWhile_no_slash (x : List Char) (hx : '/' ∉ x) :
    x.takeWhile (fun c => c != '/') = x := by
  rw [List.takeWhile_eq_self_iff]
  intro c hc
  have : c ≠ '/' := fun h => hx (h ▸ hc)
  simpa using this

theorem dropWhile_no_slash (x : List Char) (hx : '/' ∉ x) :
    x.dropWhile (fun c => c != '/') = [] := by
  rw [List.dropWhile_eq_nil_iff]
  intro c hc
  have : c ≠ '/' := fun h => hx (h ▸ hc)
  simpa using this

theorem tokens_segment (x : List Char) (hne : x ≠ []) (hx : '/' ∉ x) : tokens x = [x] := by
  cases x with
  | nil => exact absurd rfl hne
  | cons c s =>
    have hc : c ≠ '/' := fun h => hx (by simp [h])
    have hs : '/' ∉ s := fun h => hx (by simp [h])
    rw [tokens_cons c s hc, takeWhile_no_slash s hs, dropWhile_no_slash s hs]
    rfl

theorem takeWhile_append_slash (s x : List Char) :
    (s ++ '/' :: x).takeWhile (fun c => c != '/') = s.takeWhile (fun c => c != '/') := by
  induction s with
  | nil => simp [List.takeWhile_cons]
  | cons c s ih =>
    by_cases hc : c = '/'
    · simp [List.takeWhile_cons, hc]
    · simp [List.takeWhile_cons, hc, ih]

theorem dropWhile_append_slash (s x : List Char) :
    (s ++ '/' :: x).dropWhile (fun c => c != '/') =
      s.dropWhile (fun c => c != '/') ++ '/' :: x := by
  induction s with
  | nil => simp [List.dropWhile_cons]
  | cons c s ih =>
    by_cases hc : c = '/'
    · simp [List.dropWhile_cons, hc]
    · simp [List.dropWhile_cons, hc, ih]

theorem tokens_append_segment (x : List Char) (hne : x ≠ []) (hx : '/' ∉ x) (n : Nat) :
    ∀ p : List Char, p.length ≤ n → tokens (p ++ '/' :: x) = tokens p ++ [x] := by
  induction n with
  | zero =>
    intro p hp
    have : p = [] := List.length_eq_zero.mp (by omega)
    subst this
    rw [List.nil_append, tokens_slash, tokens_segment x hne hx, tokens_nil]
    rfl
  | succ n ih =>
    intro p hp
    cases p with
    | nil =>
      rw [List.nil_append, tokens_slash, tokens_segment x hne hx, tokens_nil]
      rfl
    | cons c s =>
      simp only [List.length_cons, Nat.add_le_add_iff_right] at hp
      by_cases hc : c = '/'
      · subst hc
        rw [List.cons_append, tokens_slash, tokens_slash]
        exact ih s hp
      · rw [List.cons_append, tokens_cons c _ hc, tokens_cons c s hc, takeWhile_append_slash,
          dropWhile_append_slash]
        cases hd : s.dropWhile (fun c => c != '/') with
        | nil =>
          simp only [List.nil_append, List.drop_succ_cons, List.drop_zero, List.drop_nil]
          rw [tokens_segment x hne hx, tokens_nil]
          rfl
        | cons e r =>
          have hlen := (List.dropWhile_sublist (fun c => c != '/') (l := s)).length_le
          rw [hd, List.length_cons] at hlen
          simp only [List.cons_append, List.drop_succ_cons, List.drop_zero]
          rw [ih r (by omega)]

theorem tokens_append (p x : List Char) (hne : x ≠ []) (hx : '/' ∉ x) :
    tokens (p ++ '/' :: x) = tokens p ++ [x] :=
  tokens_append_segment x hne hx p.length p (Nat.le_refl _)

/-! ## Paths without segments, and the children of the root -/

theorem strtok_r_eq_none_iff (s : List Char) : strtok_r s = none ↔ ∀ c ∈ s, c = '/' := by
  unfold strtok_r
  constructor
  · intro h
    split at h
    · rename_i hd
      rw [List.dropWhile_eq_nil_iff] at hd
      simpa using hd
    · exact absurd h (by simp)
  · intro h
    have hd : s.dropWhile (fun c => c == '/') = [] := by
      rw [List.dropWhile_eq_nil_iff]
      simpa using h
    rw [hd]

theorem tokens_eq_nil_iff (s : List Char) : tokens s = [] ↔ ∀ c ∈ s, c = '/' := by
  rw [← strtok_r_eq_none_iff]
  constructor
  · intro h
    cases hs : strtok_r s with
    | none => rfl
    | some ps =>
      obtain ⟨pch, saveptr⟩ := ps
      rw [tokens_of_some _ _ _ hs] at h
      exact absurd h (by simp)
  · exact tokens_of_none s

theorem ins_chain_ne_NULL (c : node) (t : List Char) (ts : List (List Char)) :
    ins_chain c t ts ≠ .NULL := by
  cases c with
  | NULL =>
    obtain ⟨c1, hc1⟩ := create_toks_mk t .NULL .NULL ts
    simp only [ins_chain, new_node, hc1]
    simp
  | mk d c1 n1 =>
    obtain ⟨c2, hc2⟩ := create_toks_mk d c1 n1 ts
    simp only [ins_chain]
    split
    · simp [hc2]
    · simp

theorem child_create_toks (n : node) (ts : List (List Char)) (hn : n ≠ .NULL) :
    (create_toks n ts).child ≠ .NULL ↔ n.child ≠ .NULL ∨ ts ≠ [] := by
  cases n with
  | NULL => exact absurd rfl hn
  | mk d c nx =>
    cases ts with
    | nil => simp [create_toks]
    | cons t ts => simp [create_toks_cons, node.child, ins_chain_ne_NULL]

theorem child_foldl (listing : List (List Char)) :
    ∀ root : node, root ≠ .NULL →
      ((listing.foldl create_entities root).child ≠ .NULL ↔
        root.child ≠ .NULL ∨ ∃ q ∈ listing, tokens q ≠ []) := by
  induction listing with
  | nil => intro root _; simp
  | cons p listing ih =>
    intro root hroot
    have hne : create_entities root p ≠ .NULL := by
      cases root with
      | NULL => exact absurd rfl hroot
      | mk d c nx =>
        obtain ⟨c1, hc1⟩ := create_toks_mk d c nx (tokens p)
        simp [create_entities_eq, hc1]
    rw [List.foldl_cons, ih _ hne, create_entities_eq, child_create_toks _ _ hroot]
    simp only [List.mem_cons, exists_eq_or_imp, or_assoc]

theorem child_ingest (listing : List (List Char)) :
    (ingest listing).child ≠ .NULL ↔ ∃ q ∈ listing, ∃ c ∈ q, c ≠ '/' := by
  unfold ingest
  rw [child_foldl listing _ (by simp [new_node])]
  simp only [new_node, node.child, ne_eq, not_true_eq_false, false_or, tokens_eq_nil_iff,
    not_forall, exists_prop]

/-! ## Sibling names -/

theorem names_create_toks (d : List Char) (c nx : node) (ts : List (List Char)) :
    names (create_toks (.mk d c nx) ts) = d :: names nx := by
  obtain ⟨c1, hc1⟩ := create_toks_mk d c nx ts
  rw [hc1]
  rfl

theorem names_ins_chain (t : List Char) (ts : List (List Char)) :
    ∀ c : node, names (ins_chain c t ts) = if t ∈ names c then names c else names c ++ [t] := by
  intro c
  induction c with
  | NULL => simp [ins_chain, new_node, names_create_toks, names]
  | mk d c1 n1 _ ih =>
    simp only [ins_chain]
    by_cases hd : d = t
    · simp [hd, names_create_toks, names]
    · have hd1 : ¬ t = d := fun h => hd h.symm
      simp only [hd, if_false, names, ih, List.mem_cons, hd1, false_or]
      split <;> simp

theorem nodup_names_ins_chain (t : List Char) (ts : List (List Char)) (c : node)
    (h : (names c).Nodup) : (names (ins_chain c t ts)).Nodup := by
  rw [names_ins_chain]
  split
  · exact h
  · rename_i ht
    rw [List.nodup_append]
    refine ⟨h, List.nodup_singleton t, ?_⟩
    intro a ha hb
    simp only [List.mem_singleton] at hb
    subst hb
    exact ht ha

theorem sibling_unique_create_toks (ts : List (List Char)) :
    ∀ n : node, sibling_unique n → sibling_unique (create_toks n ts) := by
  induction ts with
  | nil => intro n h; exact h
  | cons t ts ih =>
    intro n h
    cases n with
    | NULL => trivial
    | mk d c nx =>
      rw [create_toks_cons]
      obtain ⟨h1, h2, h3⟩ := h
      refine ⟨nodup_names_ins_chain t ts c h1, ?_, h3⟩
      clear h1
      induction c with
      | NULL =>
        exact ih (new_node t) ⟨List.nodup_nil, trivial, trivial⟩
      | mk d1 c1 n1 _ ih1 =>
        simp only [ins_chain]
        split
        · exact ih _ h2
        · exact ⟨h2.1, h2.2.1, ih1 h2.2.2⟩

theorem sibling_unique_create_entities (fs_root : node) (p : List Char)
    (h : sibling_unique fs_root) : sibling_unique (create_entities fs_root p) := by
  rw [create_entities_eq]
  exact sibling_unique_create_toks _ _ h

theorem sibling_unique_foldl (listing : List (List Char)) :
    ∀ root : node, sibling_unique root →
      sibling_unique (listing.foldl create_entities root) := by
  induction listing with
  | nil => intro root h; exact h
  | cons p listing ih =>
    intro root h
    exact ih _ (sibling_unique_create_entities root p h)

/-! ## `ffs_read` -/

theorem file_exists_eq_zero_iff (ptr_int : Int) (fs_root : node) (path : List Char) :
    file_exists ptr_int fs_root path = 0 ↔ get_node fs_root path = .NULL ∨ ptr_int = 0 := by
  unfold file_exists
  cases get_node fs_root path <;> simp

theorem ffs_read_overrun (ptr_int : Int) (fs_root : node) (listing_file path : List Char)
    (size : Nat) (offset : Int)
    (h : 2048 ≤ (path ++ " is in ".toList ++ listing_file).length) :
    ffs_read ptr_int fs_root listing_file path size offset = none := by
  simp only [ffs_read, h, if_true]

theorem ffs_read_missing (ptr_int : Int) (fs_root : node) (listing_file path : List Char)
    (size : Nat) (offset : Int)
    (hfit : (path ++ " is in ".toList ++ listing_file).length < 2048)
    (h : get_node fs_root path = .NULL ∨ ptr_int = 0) :
    ffs_read ptr_int fs_root listing_file path size offset = some (-ENOENT, []) := by
  have hf : file_exists ptr_int fs_root path = 0 := (file_exists_eq_zero_iff _ _ _).2 h
  have hfit1 : ¬ 2048 ≤ (path ++ " is in ".toList ++ listing_file).length := by omega
  simp only [ffs_read, hfit1, hf, if_false, if_true]

theorem ffs_read_found_ne (ptr_int : Int) (fs_root : node) (listing_file path : List Char)
    (size : Nat) (offset : Int) (h : get_node fs_root path ≠ .NULL) (hptr : ptr_int ≠ 0) :
    ffs_read ptr_int fs_root listing_file path size offset ≠ some (-ENOENT, []) := by
  have hf : ¬ file_exists ptr_int fs_root path = 0 := by
    rw [file_exists_eq_zero_iff]
    exact fun hc => hc.elim h hptr
  have key : ∀ (n : Nat) (l : List Char),
      (some ((n : Int), l) : Option (Int × List Char)) ≠ some (-ENOENT, []) := by
    intro n l hc
    simp only [Option.some.injEq, Prod.mk.injEq, ENOENT] at hc
    omega
  unfold ffs_read
  simp only [hf, if_false]
  split_ifs
  · exact fun hc => Option.noConfusion hc
  · exact fun hc => Option.noConfusion hc
  · exact key _ _
  · exact fun hc => Option.noConfusion hc
  · exact key _ _
  · exact key 0 []

theorem ffs_read_ptr_congr (ptr_int : Int) (fs_root : node) (listing_file path : List Char)
    (size : Nat) (offset : Int) (hptr : ptr_int ≠ 0) :
    ffs_read ptr_int fs_root listing_file path size offset =
      ffs_read 1 fs_root listing_file path size offset := by
  have hf : (file_exists ptr_int fs_root path = 0) ↔ (file_exists 1 fs_root path = 0) := by
    rw [file_exists_eq_zero_iff, file_exists_eq_zero_iff]
    simp [hptr]
  unfold ffs_read
  simp only [hf]

theorem ffs_read_in_range (ptr_int : Int) (fs_root : node) (listing_file path : List Char)
    (size : Nat) (offset : Int)
    (hfit : (path ++ " is in ".toList ++ listing_file).length < 2048)
    (h : get_node fs_root path ≠ .NULL) (hptr : ptr_int ≠ 0) (h0 : 0 ≤ offset)
    (hsum : offset.toNat + size < 2 ^ 64) :
    ffs_read ptr_int fs_root listing_file path size offset =
      some (((((path ++ " is in ".toList ++ listing_file).drop offset.toNat).take size).length :
              Int),
            ((path ++ " is in ".toList ++ listing_file).drop offset.toNat).take size) := by
  have hf : ¬ file_exists ptr_int fs_root path = 0 := by
    rw [file_exists_eq_zero_iff]
    exact fun hc => hc.elim h hptr
  have hfit1 : ¬ 2048 ≤ (path ++ " is in ".toList ++ listing_file).length := by omega
  obtain ⟨o, rfl⟩ := Int.eq_ofNat_of_zero_le h0
  simp only [Int.toNat_ofNat] at hsum ⊢
  have ho : (((o : Int) % 2 ^ 64).toNat) = o := by
    have : ((o : Int) % 2 ^ 64) = ((o % 2 ^ 64 : Nat) : Int) := by push_cast; rfl
    rw [this, Int.toNat_ofNat]
    exact Nat.mod_eq_of_lt (by omega)
  have hmod : (o + size) % 2 ^ 64 = o + size := Nat.mod_eq_of_lt hsum
  simp only [ffs_read, hfit1, hf, if_false, ho, hmod]
  generalize hdata : path ++ " is in ".toList ++ listing_file = data at hfit ⊢
  by_cases hlt : o < data.length
  · simp only [hlt, if_true]
    by_cases hov : o + size > data.length
    · have ht : List.take size (List.drop o data) =
          List.take (data.length - o) (List.drop o data) := by
        rw [List.take_of_length_le (by simp; omega), List.take_of_length_le (by simp)]
      have hnot : ¬ 2048 < o + (data.length - o) := by omega
      simp only [hov, if_true, hnot, if_false, ht, List.length_take, List.length_drop,
        Nat.min_self]
    · have hnot : ¬ 2048 < o + size := by omega
      have hmin : min size (data.length - o) = size := by omega
      simp only [hov, if_false, hnot, List.length_take, List.length_drop, hmin]
  · have hd : List.drop o data = [] := List.drop_of_length_le (by omega)
    simp [hlt, hd]

/-! ## A leaf that receives a child -/

theorem strtok_r_segment (x : List Char) (hne : x ≠ []) (hx : '/' ∉ x) :
    strtok_r x = some (x, []) := by
  cases x with
  | nil => exact absurd rfl hne
  | cons c s =>
    have hc : c ≠ '/' := fun h => hx (by simp [h])
    have hs : '/' ∉ s := fun h => hx (by simp [h])
    rw [strtok_r_cons c s hc, takeWhile_no_slash s hs, dropWhile_no_slash s hs]
    rfl

theorem strtok_r_str_length (s pch saveptr : List Char) (h : strtok_r s = some (pch, saveptr)) :
    pch.length ≤ (strtok_r_str s).length := by
  simp only [strtok_r_str, h, List.length_append]
  omega

theorem child_create_leaf_snoc (x : List Char) (ts : List (List Char)) :
    ∀ (d : List Char) (nx : node),
      (get_node_toks (create_toks (.mk d .NULL nx) (ts ++ [x])) ts).child = new_node x := by
  induction ts with
  | nil =>
    intro d nx
    rw [List.nil_append, create_toks_cons]
    simp [get_node_toks, node.child, ins_chain, create_toks]
  | cons t ts ih =>
    intro d nx
    obtain ⟨c1, hc1⟩ := create_toks_mk t .NULL .NULL (ts ++ [x])
    have := ih t .NULL
    rw [List.cons_append, create_toks_cons]
    simp only [get_node_toks_cons, node.child, ins_chain, new_node]
    rw [hc1] at this ⊢
    simpa [get_child_loop] using this

theorem child_after_collision (x : List Char) (ts : List (List Char)) (d : List Char)
    (nx : node) :
    (get_node_toks (create_toks (create_toks (.mk d .NULL nx) ts) (ts ++ [x])) ts).child =
      new_node x := by
  obtain ⟨hne, hleaf⟩ := get_node_create_leaf ts d nx
  rw [get_node_create_append ts [x] _ hne]
  cases hm : get_node_toks (create_toks (.mk d .NULL nx) ts) ts with
  | NULL => exact absurd hm hne
  | mk d1 c1 n1 =>
    rw [hm] at hleaf
    simp only [node.child] at hleaf
    subst hleaf
    rw [create_toks_cons]
    simp [node.child, ins_chain, create_toks]

theorem ffs_readdir_fits (fs_root : node) (listing_file path : List Char)
    (stbuf file_stat : stat)
    (hfit : ∀ d ∈ names (get_node fs_root path).child,
      (strtok_r_str path ++ '/' :: d).length < 2048) :
    ((∃ es, ffs_readdir fs_root listing_file path file_stat = some (0, es)) ↔
        is_Directory (ffs_getattr fs_root listing_file path stbuf)) ∧
      (¬ is_Directory (ffs_getattr fs_root listing_file path stbuf) →
        ffs_readdir fs_root listing_file path file_stat = some (-ENOTDIR, [])) := by
  rw [is_Directory_iff]
  constructor
  · constructor
    · rintro ⟨es, hes⟩ hchild
      rw [ffs_readdir_not_dir _ _ _ _ hchild] at hes
      simp [ENOTDIR] at hes
    · intro hchild
      obtain ⟨es, hes, _⟩ := ffs_readdir_dir fs_root listing_file path file_stat hchild hfit
      exact ⟨es, hes⟩
  · intro hchild
    exact ffs_readdir_not_dir _ _ _ _ (not_not.mp hchild)

theorem ffs_readdir_long_names (a b listing_file : List Char) (stbuf file_stat : stat)
    (ha : a ≠ []) (hsa : '/' ∉ a) (hb : b ≠ []) (hsb : '/' ∉ b)
    (hlen : 2047 ≤ a.length + b.length) :
    is_Directory (ffs_getattr (ingest [('/' :: a) ++ '/' :: b]) listing_file ('/' :: a) stbuf) ∧
      ffs_readdir (ingest [('/' :: a) ++ '/' :: b]) listing_file ('/' :: a) file_stat = none := by
  have hdir : tokens ('/' :: a) = [a] := by
    rw [tokens_slash, tokens_segment _ ha hsa]
  have hlong : tokens (('/' :: a) ++ '/' :: b) = [a] ++ [b] := by
    rw [tokens_append _ _ hb hsb, hdir]
  have hchild : (get_node (ingest [('/' :: a) ++ '/' :: b]) ('/' :: a)).child = new_node b := by
    rw [get_node_eq, hdir]
    simp only [ingest, List.foldl_cons, List.foldl_nil, create_entities_eq, hlong, new_node]
    exact child_create_leaf_snoc _ _ _ _
  constructor
  · rw [is_Directory_iff, hchild]
    simp [new_node]
  · apply ffs_readdir_overrun
    rw [hchild]
    refine ⟨b, by simp [new_node, names], ?_⟩
    have h1 := strtok_r_str_length ('/' :: a) a []
      (by rw [strtok_r_slash, strtok_r_segment _ ha hsa])
    simp only [List.length_append, List.length_cons] at h1 ⊢
    omega

/-! ## Claims -/

/-- C1: every path of an ingested listing resolves: `get_node` on the finished tree returns a
node, and `ffs_getattr` reports a directory exactly when that node has a child and a regular
file exactly when it has none. -/
theorem C1_listed_path_resolves (listing : List (List Char)) (p listing_file : List Char)
    (stbuf : stat) (hp : p ∈ listing) :
    get_node (ingest listing) p ≠ .NULL ∧
      (is_Directory (ffs_getattr (ingest listing) listing_file p stbuf) ↔
        (get_node (ingest listing) p).child ≠ .NULL) ∧
      (is_File (ffs_getattr (ingest listing) listing_file p stbuf) ↔
        (get_node (ingest listing) p).child = .NULL) := by
  have h : get_node (ingest listing) p ≠ .NULL := by
    rw [get_node_eq, resolves_ingest]
    exact Or.inr ⟨p, hp, List.prefix_refl _⟩
  refine ⟨h, is_Directory_iff _ _ _ _, ?_⟩
  rw [is_File_iff]
  exact ⟨fun h1 => h1.2, fun h1 => ⟨h, h1⟩⟩

/-- C1 at the listing `/a/b`, `/a` and the path `/a`. -/
theorem C1_listed_path_resolves_witness :
    get_node (ingest ["/a/b".toList, "/a".toList]) "/a".toList ≠ .NULL ∧
      (is_Directory (ffs_getattr (ingest ["/a/b".toList, "/a".toList]) "l".toList "/a".toList
          ⟨0, 0, 0, 0⟩) ↔
        (get_node (ingest ["/a/b".toList, "/a".toList]) "/a".toList).child ≠ .NULL) ∧
      (is_File (ffs_getattr (ingest ["/a/b".toList, "/a".toList]) "l".toList "/a".toList
          ⟨0, 0, 0, 0⟩) ↔
        (get_node (ingest ["/a/b".toList, "/a".toList]) "/a".toList).child = .NULL) :=
  C1_listed_path_resolves ["/a/b".toList, "/a".toList] "/a".toList "l".toList ⟨0, 0, 0, 0⟩
    (by decide)

/-- C2: `create_entities` is idempotent on every tree: a second insertion of the same path
leaves the tree as the first insertion left it, node for node. -/
theorem C2_create_entities_idempotent (fs_root : node) (p : List Char) :
    create_entities (create_entities fs_root p) p = create_entities fs_root p := by
  simp only [create_entities_eq]
  exact create_toks_idem _ _

/-- C3: for the listing `/a/b/c.txt`, `/a/c/e.dat`, `/a/c/f.mp4`, `ffs_readdir` hands out the
names `b`, `c` for `/a` and `e.dat`, `f.mp4` for `/a/c`, in that order, and `ffs_getattr` reports
a file for `/a/b/c.txt` and a directory for `/a` and for `/a/c`. -/
theorem C3_example_listing (listing_file : List Char) (file_stat stbuf : stat) :
    (ffs_readdir (ingest ["/a/b/c.txt".toList, "/a/c/e.dat".toList, "/a/c/f.mp4".toList])
        listing_file "/a".toList file_stat).map (fun r => (r.1, r.2.map Prod.fst)) =
      some (0, ["b".toList, "c".toList]) ∧
    (ffs_readdir (ingest ["/a/b/c.txt".toList, "/a/c/e.dat".toList, "/a/c/f.mp4".toList])
        listing_file "/a/c".toList file_stat).map (fun r => (r.1, r.2.map Prod.fst)) =
      some (0, ["e.dat".toList, "f.mp4".toList]) ∧
    is_File (ffs_getattr (ingest ["/a/b/c.txt".toList, "/a/c/e.dat".toList, "/a/c/f.mp4".toList])
        listing_file "/a/b/c.txt".toList stbuf) ∧
    is_Directory (ffs_getattr
        (ingest ["/a/b/c.txt".toList, "/a/c/e.dat".toList, "/a/c/f.mp4".toList])
        listing_file "/a".toList stbuf) ∧
    is_Directory (ffs_getattr
        (ingest ["/a/b/c.txt".toList, "/a/c/e.dat".toList, "/a/c/f.mp4".toList])
        listing_file "/a/c".toList stbuf) := by
  have hT : ingest ["/a/b/c.txt".toList, "/a/c/e.dat".toList, "/a/c/f.mp4".toList] =
      .mk ['/'] (.mk ['a'] (.mk ['b'] (new_node "c.txt".toList)
        (.mk ['c'] (.mk "e.dat".toList .NULL (new_node "f.mp4".toList)) .NULL)) .NULL) .NULL := by
    decide
  rw [hT]
  refine ⟨?_, ?_, ?_, ?_, ?_⟩
  · obtain ⟨es, hes, hn⟩ := ffs_readdir_dir
      (.mk ['/'] (.mk ['a'] (.mk ['b'] (new_node "c.txt".toList)
        (.mk ['c'] (.mk "e.dat".toList .NULL (new_node "f.mp4".toList)) .NULL)) .NULL) .NULL)
      listing_file "/a".toList file_stat (by decide) (by decide)
    rw [hes, Option.map_some', hn]
    show some ((0 : Int), _) = _
    decide
  · obtain ⟨es, hes, hn⟩ := ffs_readdir_dir
      (.mk ['/'] (.mk ['a'] (.mk ['b'] (new_node "c.txt".toList)
        (.mk ['c'] (.mk "e.dat".toList .NULL (new_node "f.mp4".toList)) .NULL)) .NULL) .NULL)
      listing_file "/a/c".toList file_stat (by decide) (by decide)
    rw [hes, Option.map_some', hn]
    show some ((0 : Int), _) = _
    decide
  · rw [is_File_iff]; decide
  · rw [is_Directory_iff]; decide
  · rw [is_Directory_iff]; decide


/-- C4, at two failing inputs, for every value `ptr_int` of the pointer conversion in
`file_exists`.  With the listing `/a/b/c.txt` the path is a file and, unless `ptr_int` is 0, a
read of 1000 bytes at offset 5 returns the 19 bytes from byte 5 on; but with the largest
`size_t` as length `offset + size` wraps to 4, the length is not clamped, `memcpy` is asked for
`2^64 - 1` bytes and the call has no defined result.  When `ptr_int` is 0 both reads fail with
`-ENOENT`.  And a listed file whose path has 2048 characters cannot be read at any offset with
any length and any listing-file name: `sprintf` overruns `data[2048]`. -/
theorem C4_ffs_read_wraps (ptr_int : Int) (listing_file : List Char) (size : Nat)
    (offset : Int) (stbuf : stat) :
    is_File (ffs_getattr (ingest ["/a/b/c.txt".toList]) "listing".toList "/a/b/c.txt".toList
        stbuf) ∧
      ffs_read ptr_int (ingest ["/a/b/c.txt".toList]) "listing".toList "/a/b/c.txt".toList
          1000 5 =
        (if ptr_int = 0 then some (-ENOENT, []) else some (19, "c.txt is in listing".toList)) ∧
      ffs_read ptr_int (ingest ["/a/b/c.txt".toList]) "listing".toList "/a/b/c.txt".toList
          (2 ^ 64 - 1) 5 =
        (if ptr_int = 0 then some (-ENOENT, []) else none) ∧
      is_File (ffs_getattr (ingest ['/' :: List.replicate 2047 'a']) listing_file
        ('/' :: List.replicate 2047 'a') stbuf) ∧
      ffs_read ptr_int (ingest ['/' :: List.replicate 2047 'a']) listing_file
        ('/' :: List.replicate 2047 'a') size offset = none := by
  refine ⟨?_, ?_, ?_, ?_, ?_⟩
  · rw [is_File_iff]; decide
  · by_cases hp : ptr_int = 0
    · subst hp
      decide
    · rw [ffs_read_ptr_congr ptr_int _ _ _ _ _ hp, if_neg hp]
      decide
  · by_cases hp : ptr_int = 0
    · subst hp
      decide
    · rw [ffs_read_ptr_congr ptr_int _ _ _ _ _ hp, if_neg hp]
      decide
  · rw [is_File_iff, get_node_eq]
    simp only [ingest, List.foldl_cons, List.foldl_nil, create_entities_eq, new_node]
    exact get_node_create_leaf _ _ _
  · apply ffs_read_overrun
    simp only [List.length_append, List.length_cons, List.length_replicate]
    omega

/-- C5, refuted as stated: with the listing `/a/b` the path `/a` is a directory, and `ffs_read`
(the pointer to the node converting to the `int` 1) returns its synthesised content instead of
the not-found error. -/
theorem C5_directory_is_read :
    is_Directory (ffs_getattr (ingest ["/a/b".toList]) "l".toList "/a".toList ⟨0, 0, 0, 0⟩) ∧
      ffs_read 1 (ingest ["/a/b".toList]) "l".toList "/a".toList 100 0 =
        some (10, "/a is in l".toList) := by
  constructor
  · rw [is_Directory_iff]; decide
  · decide

/-- C5, amended: when the content fits the 2048-byte buffer and the pointer to a found node
converts to an `int` other than 0, `ffs_read` fails with `-ENOENT` exactly when `ffs_getattr`
reports no such entry; a path that is a directory is read like a file, and a read of the whole
length at offset 0 returns `path ++ " is in " ++ listing_file`. -/
theorem C5_ffs_read_fails_iff_not_found (ptr_int : Int) (fs_root : node)
    (listing_file path : List Char) (size : Nat) (offset : Int) (stbuf : stat)
    (hfit : (path ++ " is in ".toList ++ listing_file).length < 2048)
    (hptr : ptr_int ≠ 0) :
    (ffs_read ptr_int fs_root listing_file path size offset = some (-ENOENT, []) ↔
        is_NotFound (ffs_getattr fs_root listing_file path stbuf)) ∧
      (is_Directory (ffs_getattr fs_root listing_file path stbuf) →
        ffs_read ptr_int fs_root listing_file path
            (path ++ " is in ".toList ++ listing_file).length 0 =
          some (((path ++ " is in ".toList ++ listing_file).length : Int),
            path ++ " is in ".toList ++ listing_file)) := by
  constructor
  · rw [is_NotFound_iff]
    constructor
    · intro h
      by_contra hne
      exact ffs_read_found_ne _ _ _ _ _ _ hne hptr h
    · intro h
      exact ffs_read_missing _ _ _ _ _ _ hfit (Or.inl h)
  · intro hdir
    rw [is_Directory_iff] at hdir
    have hne : get_node fs_root path ≠ .NULL := by
      intro h
      rw [h] at hdir
      exact hdir rfl
    have := ffs_read_in_range ptr_int fs_root listing_file path
      (path ++ " is in ".toList ++ listing_file).length 0 hfit hne hptr (Int.le_refl 0)
      (by simp only [Int.toNat_zero]; omega)
    simp only [Int.toNat_zero, List.drop_zero, List.take_length] at this
    exact this

/-- C5, amended, at the listing `/a/b`, the directory `/a` and the conversion result 1. -/
theorem C5_ffs_read_fails_iff_not_found_witness :
    ("/a".toList ++ " is in ".toList ++ "l".toList).length < 2048 ∧ (1 : Int) ≠ 0 ∧
      ((ffs_read 1 (ingest ["/a/b".toList]) "l".toList "/a".toList 100 0 =
            some (-ENOENT, []) ↔
          is_NotFound (ffs_getattr (ingest ["/a/b".toList]) "l".toList "/a".toList
            ⟨0, 0, 0, 0⟩)) ∧
        (is_Directory (ffs_getattr (ingest ["/a/b".toList]) "l".toList "/a".toList
            ⟨0, 0, 0, 0⟩) →
          ffs_read 1 (ingest ["/a/b".toList]) "l".toList "/a".toList
              ("/a".toList ++ " is in ".toList ++ "l".toList).length 0 =
            some ((("/a".toList ++ " is in ".toList ++ "l".toList).length : Int),
              "/a".toList ++ " is in ".toList ++ "l".toList))) :=
  ⟨by decide, by decide,
    C5_ffs_read_fails_iff_not_found 1 (ingest ["/a/b".toList]) "l".toList "/a".toList 100 0
      ⟨0, 0, 0, 0⟩ (by decide) (by decide)⟩

/-- C6, at the failing input: the listing holds one path, a directory name of 1024 `a` with a
child name of 1024 `b`.  The directory is a directory for `ffs_getattr`, yet `ffs_readdir` on it
formats a child path of 2050 characters into `filepath[2048]` and has no defined result. -/
theorem C6_ffs_readdir_overruns (listing_file : List Char) (stbuf file_stat : stat) :
    is_Directory (ffs_getattr
        (ingest [('/' :: List.replicate 1024 'a') ++ '/' :: List.replicate 1024 'b'])
        listing_file ('/' :: List.replicate 1024 'a') stbuf) ∧
      ffs_readdir (ingest [('/' :: List.replicate 1024 'a') ++ '/' :: List.replicate 1024 'b'])
        listing_file ('/' :: List.replicate 1024 'a') file_stat = none := by
  have ha : List.replicate 1024 'a' ≠ [] :=
    List.ne_nil_of_length_pos (by rw [List.length_replicate]; omega)
  have hb : List.replicate 1024 'b' ≠ [] :=
    List.ne_nil_of_length_pos (by rw [List.length_replicate]; omega)
  have hsa : '/' ∉ List.replicate 1024 'a' := by
    intro h
    exact absurd (List.eq_of_mem_replicate h) (by decide)
  have hsb : '/' ∉ List.replicate 1024 'b' := by
    intro h
    exact absurd (List.eq_of_mem_replicate h) (by decide)
  exact ffs_readdir_long_names _ _ listing_file stbuf file_stat ha hsa hb hsb
    (by rw [List.length_replicate, List.length_replicate]; omega)

/-- C7, refuted as stated: with the empty listing the path `/` resolves to the root, and
`ffs_getattr` reports a regular file for it, not a directory. -/
theorem C7_empty_root_is_file :
    get_node (ingest []) "/".toList = ingest [] ∧
      is_File (ffs_getattr (ingest []) "listing".toList "/".toList ⟨0, 0, 0, 0⟩) ∧
      ¬ is_Directory (ffs_getattr (ingest []) "listing".toList "/".toList ⟨0, 0, 0, 0⟩) := by
  refine ⟨by decide, ?_, ?_⟩
  · rw [is_File_iff]; decide
  · rw [is_Directory_iff]; decide

/-- C7, amended: a path that consists of `/` characters only resolves to the root for every
listing; `ffs_getattr` reports a directory for it exactly when some path of the listing has a
segment (the root has a child), and a regular file exactly when none has. -/
theorem C7_root_by_children (listing : List (List Char)) (listing_file p : List Char)
    (stbuf : stat) (hp : ∀ c ∈ p, c = '/') :
    get_node (ingest listing) p = ingest listing ∧
      (is_Directory (ffs_getattr (ingest listing) listing_file p stbuf) ↔
        ∃ q ∈ listing, ∃ c ∈ q, c ≠ '/') ∧
      (is_File (ffs_getattr (ingest listing) listing_file p stbuf) ↔
        ∀ q ∈ listing, ∀ c ∈ q, c = '/') := by
  have hroot : get_node (ingest listing) p = ingest listing := by
    rw [get_node_eq, (tokens_eq_nil_iff p).2 hp]
    rfl
  refine ⟨hroot, ?_, ?_⟩
  · rw [is_Directory_iff, hroot, child_ingest]
  · rw [is_File_iff, hroot]
    have h := child_ingest listing
    constructor
    · rintro ⟨_, hc⟩ q hq c hcq
      by_contra hne
      exact (h.2 ⟨q, hq, c, hcq, hne⟩) hc
    · intro hall
      refine ⟨ingest_ne_NULL listing, ?_⟩
      by_contra hne
      obtain ⟨q, hq, c, hcq, hc⟩ := h.1 hne
      exact hc (hall q hq c hcq)

/-- C7, amended, at the listing `/a` and the path `//`. -/
theorem C7_root_by_children_witness :
    (∀ c ∈ "//".toList, c = '/') ∧
      (get_node (ingest ["/a".toList]) "//".toList = ingest ["/a".toList] ∧
        (is_Directory (ffs_getattr (ingest ["/a".toList]) "l".toList "//".toList ⟨0, 0, 0, 0⟩) ↔
          ∃ q ∈ ["/a".toList], ∃ c ∈ q, c ≠ '/') ∧
        (is_File (ffs_getattr (ingest ["/a".toList]) "l".toList "//".toList ⟨0, 0, 0, 0⟩) ↔
          ∀ q ∈ ["/a".toList], ∀ c ∈ q, c = '/')) :=
  ⟨by decide, C7_root_by_children ["/a".toList] "l".toList "//".toList ⟨0, 0, 0, 0⟩ (by decide)⟩

/-- C8: a path with at least one segment whose first segment is the first segment of no path
of the listing does not resolve: `get_node` returns `NULL` and `ffs_getattr` returns `-ENOENT`
and leaves the stat buffer as it was. -/
theorem C8_foreign_path_not_found (listing : List (List Char)) (q listing_file : List Char)
    (stbuf : stat) (hq : tokens q ≠ [])
    (hL : ∀ p ∈ listing, (tokens p).head? ≠ (tokens q).head?) :
    get_node (ingest listing) q = .NULL ∧
      ffs_getattr (ingest listing) listing_file q stbuf = (-ENOENT, stbuf) := by
  have h : get_node (ingest listing) q = .NULL := by
    by_contra hne
    rw [get_node_eq] at hne
    rcases (resolves_ingest listing (tokens q)).1 hne with h0 | ⟨p, hp, hpre⟩
    · exact hq h0
    · apply hL p hp
      obtain ⟨r, hr⟩ := hpre
      cases hqt : tokens q with
      | nil => exact absurd hqt hq
      | cons t ts =>
        rw [← hr, hqt]
        rfl
  refine ⟨h, ?_⟩
  simp only [ffs_getattr, h]

/-- C8 at the listing `/a/b`, `/c` and the path `/nonexistent/path`. -/
theorem C8_foreign_path_not_found_witness :
    tokens "/nonexistent/path".toList ≠ [] ∧
      (∀ p ∈ ["/a/b".toList, "/c".toList],
        (tokens p).head? ≠ (tokens "/nonexistent/path".toList).head?) ∧
      (get_node (ingest ["/a/b".toList, "/c".toList]) "/nonexistent/path".toList = .NULL ∧
        ffs_getattr (ingest ["/a/b".toList, "/c".toList]) "l".toList "/nonexistent/path".toList
          ⟨0, 0, 0, 0⟩ = (-ENOENT, ⟨0, 0, 0, 0⟩)) :=
  ⟨by decide, by decide,
    C8_foreign_path_not_found ["/a/b".toList, "/c".toList] "/nonexistent/path".toList "l".toList
      ⟨0, 0, 0, 0⟩ (by decide) (by decide)⟩

/-- C9: prefix collision.  For every path `p` and every segment name `x` (non-empty, without
`/`), after `p` and then `p/x` are ingested into the root-only tree, `ffs_getattr` reports a
directory and not a file for `p`, and the node of `p` has exactly one child: a node named `x`
without children and without a next sibling. -/
theorem C9_prefix_collision (p x listing_file : List Char) (stbuf : stat) (hne : x ≠ [])
    (hx : '/' ∉ x) :
    is_Directory (ffs_getattr (ingest [p, p ++ '/' :: x]) listing_file p stbuf) ∧
      ¬ is_File (ffs_getattr (ingest [p, p ++ '/' :: x]) listing_file p stbuf) ∧
      (get_node (ingest [p, p ++ '/' :: x]) p).child = .mk x .NULL .NULL ∧
      names (get_node (ingest [p, p ++ '/' :: x]) p).child = [x] := by
  have hchild : (get_node (ingest [p, p ++ '/' :: x]) p).child = .mk x .NULL .NULL := by
    rw [get_node_eq]
    simp only [ingest, List.foldl_cons, List.foldl_nil, create_entities_eq,
      tokens_append p x hne hx, new_node]
    exact child_after_collision _ _ _ _
  refine ⟨?_, ?_, hchild, ?_⟩
  · rw [is_Directory_iff, hchild]
    simp
  · rw [is_File_iff, hchild]
    simp
  · rw [hchild]
    rfl

/-- C9 at the listing `/a`, `/a/b`. -/
theorem C9_prefix_collision_witness :
    "b".toList ≠ [] ∧ '/' ∉ "b".toList ∧
      (is_Directory (ffs_getattr (ingest ["/a".toList, "/a".toList ++ '/' :: "b".toList])
          "l".toList "/a".toList ⟨0, 0, 0, 0⟩) ∧
        ¬ is_File (ffs_getattr (ingest ["/a".toList, "/a".toList ++ '/' :: "b".toList])
          "l".toList "/a".toList ⟨0, 0, 0, 0⟩) ∧
        (get_node (ingest ["/a".toList, "/a".toList ++ '/' :: "b".toList]) "/a".toList).child =
          .mk "b".toList .NULL .NULL ∧
        names (get_node (ingest ["/a".toList, "/a".toList ++ '/' :: "b".toList])
          "/a".toList).child = ["b".toList]) :=
  ⟨by decide, by decide,
    C9_prefix_collision "/a".toList "b".toList "l".toList ⟨0, 0, 0, 0⟩ (by decide) (by decide)⟩

/-- C10: sibling names are unique.  The root-only tree has no two children of one parent with
the same name, `create_entities` keeps this for every tree and path, and so it holds in the
tree built from any listing. -/
theorem C10_sibling_names_unique :
    sibling_unique (new_node ['/']) ∧
      (∀ (fs_root : node) (p : List Char),
        sibling_unique fs_root → sibling_unique (create_entities fs_root p)) ∧
      (∀ listing : List (List Char), sibling_unique (ingest listing)) :=
  ⟨⟨List.nodup_nil, trivial, trivial⟩, sibling_unique_create_entities,
    fun listing => sibling_unique_foldl listing _ ⟨List.nodup_nil, trivial, trivial⟩⟩

/-- C10 at the tree of the listing `/a/b`, with `/a/b` inserted once more and `/a/c` added. -/
theorem C10_sibling_names_unique_witness :
    sibling_unique (ingest ["/a/b".toList]) ∧
      sibling_unique (create_entities (ingest ["/a/b".toList]) "/a/b".toList) ∧
      sibling_unique (ingest ["/a/b".toList, "/a/b".toList, "/a/c".toList]) :=
  ⟨C10_sibling_names_unique.2.2 _,
    C10_sibling_names_unique.2.1 _ _ (C10_sibling_names_unique.2.2 _),
    C10_sibling_names_unique.2.2 _⟩


/-! ## Segments by splitting and by `strtok_r` -/

theorem segments_slash (s : List Char) : segments ('/' :: s) = segments s := by
  simp [segments, List.splitOn, List.splitOnP_cons]

theorem dropWhile_head_slash (s : List Char) (e : Char) (r : List Char)
    (h : s.dropWhile (fun c => c != '/') = e :: r) : e = '/' := by
  have h1 := List.head?_dropWhile_not (fun c => c != '/') s
  rw [h] at h1
  simpa using h1

theorem segments_eq_tokens (n : Nat) :
    ∀ s : List Char, s.length ≤ n → segments s = tokens s := by
  induction n with
  | zero =>
    intro s hs
    have : s = [] := List.length_eq_zero.mp (by omega)
    subst this
    rfl
  | succ n ih =>
    intro s hs
    cases s with
    | nil => rfl
    | cons c s =>
      simp only [List.length_cons, Nat.add_le_add_iff_right] at hs
      by_cases hc : c = '/'
      · subst hc
        rw [segments_slash, tokens_slash]
        exact ih s hs
      · rw [tokens_cons c s hc]
        have hsplit := List.takeWhile_append_dropWhile (fun c => c != '/') s
        have hno : ∀ x ∈ c :: s.takeWhile (fun c => c != '/'), ¬ ((fun c => c == '/') x = true) := by
          intro x hx
          simp only [List.mem_cons] at hx
          rcases hx with rfl | hx
          · simpa using hc
          · have := List.mem_takeWhile_imp hx
            simpa using this
        cases hd : s.dropWhile (fun c => c != '/') with
        | nil =>
          rw [hd, List.append_nil] at hsplit
          rw [hsplit]
          simp only [List.drop_nil, tokens_nil]
          rw [hsplit] at hno
          simp only [segments, List.splitOn, List.splitOnP_eq_single _ _ hno]
          simp
        | cons e r =>
          have he := dropWhile_head_slash s e r hd
          subst he
          have hlen := (List.dropWhile_sublist (fun c => c != '/') (l := s)).length_le
          rw [hd, List.length_cons] at hlen
          simp only [List.drop_succ_cons, List.drop_zero]
          rw [← ih r (by omega)]
          have hcs : c :: s = (c :: s.takeWhile (fun c => c != '/')) ++ '/' :: r := by
            rw [List.cons_append, ← hd, hsplit]
          rw [hcs]
          simp only [segments, List.splitOn,
            List.splitOnP_first _ _ hno '/' (by simp) r]
          simp

theorem tokens_eq_segments (s : List Char) : tokens s = segments s :=
  (segments_eq_tokens s.length s (Nat.le_refl _)).symm

/-! ## Segments of a concatenated path -/

theorem tokens_append_slash_le (s : List Char) (n : Nat) :
    ∀ p : List Char, p.length ≤ n → tokens (p ++ '/' :: s) = tokens p ++ tokens s := by
  induction n with
  | zero =>
    intro p hp
    have : p = [] := List.length_eq_zero.mp (by omega)
    subst this
    rw [List.nil_append, tokens_slash, tokens_nil]
    rfl
  | succ n ih =>
    intro p hp
    cases p with
    | nil =>
      rw [List.nil_append, tokens_slash, tokens_nil]
      rfl
    | cons c r =>
      simp only [List.length_cons, Nat.add_le_add_iff_right] at hp
      by_cases hc : c = '/'
      · subst hc
        rw [List.cons_append, tokens_slash, tokens_slash]
        exact ih r hp
      · rw [List.cons_append, tokens_cons c _ hc, tokens_cons c r hc, takeWhile_append_slash,
          dropWhile_append_slash]
        cases hd : r.dropWhile (fun c => c != '/') with
        | nil =>
          simp only [List.nil_append, List.drop_succ_cons, List.drop_zero, List.drop_nil]
          rw [tokens_nil]
          rfl
        | cons e r1 =>
          have hlen := (List.dropWhile_sublist (fun c => c != '/') (l := r)).length_le
          rw [hd, List.length_cons] at hlen
          simp only [List.cons_append, List.drop_succ_cons, List.drop_zero]
          rw [ih r1 (by omega)]

theorem tokens_append_slash (p s : List Char) :
    tokens (p ++ '/' :: s) = tokens p ++ tokens s :=
  tokens_append_slash_le s p.length p (Nat.le_refl _)

theorem get_node_toks_append (ts us : List (List Char)) :
    ∀ n : node, get_node_toks n (ts ++ us) = get_node_toks (get_node_toks n ts) us := by
  induction ts with
  | nil => intro n; rfl
  | cons t ts ih =>
    intro n
    rw [List.cons_append, get_node_toks_cons, get_node_toks_cons]
    exact ih _

theorem get_child_loop_eq_NULL_iff (t : List Char) :
    ∀ c : node, get_child_loop c t = .NULL ↔ t ∉ names c := by
  intro c
  induction c with
  | NULL => simp [get_child_loop, names]
  | mk d c1 n1 _ ih =>
    by_cases hd : d = t
    · simp [get_child_loop, names, hd]
    · have hd1 : ¬ t = d := fun h => hd h.symm
      simp [get_child_loop, names, hd, hd1, ih]

/-! ## Names of the nodes -/

theorem strtok_r_token_ok (s pch saveptr : List Char) (h : strtok_r s = some (pch, saveptr)) :
    pch ≠ [] ∧ '/' ∉ pch := by
  unfold strtok_r at h
  split at h
  · exact absurd h (by simp)
  · rename_i c cs hd
    simp only [Option.some.injEq, Prod.mk.injEq] at h
    have hc : c ≠ '/' := by
      have h1 := List.head?_dropWhile_not (fun c => c == '/') s
      rw [hd] at h1
      simpa using h1
    rw [← h.1]
    constructor
    · simp [List.takeWhile_cons, hc]
    · intro hmem
      have := List.mem_takeWhile_imp hmem
      simp at this

theorem tokens_loop_ok (fuel : Nat) :
    ∀ st : Option (List Char × List Char),
      (∀ pch saveptr, st = some (pch, saveptr) → pch ≠ [] ∧ '/' ∉ pch) →
      ∀ t ∈ tokens_loop fuel st, t ≠ [] ∧ '/' ∉ t := by
  induction fuel with
  | zero => intro st _ t ht; simp [tokens_loop] at ht
  | succ fuel ih =>
    intro st hst t ht
    cases st with
    | none => simp [tokens_loop] at ht
    | some ps =>
      obtain ⟨pch, saveptr⟩ := ps
      simp only [tokens_loop, List.mem_cons] at ht
      rcases ht with rfl | ht
      · exact hst _ _ rfl
      · exact ih _ (fun p2 s2 h2 => strtok_r_token_ok _ _ _ h2) t ht

theorem tokens_ok (s : List Char) : ∀ t ∈ tokens s, t ≠ [] ∧ '/' ∉ t :=
  tokens_loop_ok _ _ (fun _ _ h => strtok_r_token_ok _ _ _ h)

theorem names_ok_create_toks (ts : List (List Char)) :
    (∀ t ∈ ts, t ≠ [] ∧ '/' ∉ t) →
    ∀ (d : List Char) (c nx : node), names_ok c →
      names_ok (create_toks (.mk d c nx) ts).child := by
  induction ts with
  | nil => intro _ d c nx h; exact h
  | cons t ts ih =>
    intro hts d c nx h
    have ht := hts t (by simp)
    have hrest : ∀ u ∈ ts, u ≠ [] ∧ '/' ∉ u := fun u hu => hts u (by simp [hu])
    rw [create_toks_cons]
    simp only [node.child]
    induction c with
    | NULL =>
      obtain ⟨c1, hc1⟩ := create_toks_mk t .NULL .NULL ts
      have := ih hrest t .NULL .NULL trivial
      simp only [ins_chain, new_node]
      rw [hc1] at this ⊢
      exact ⟨ht, this, trivial⟩
    | mk d1 c1 n1 _ ih1 =>
      simp only [ins_chain]
      split
      · obtain ⟨c2, hc2⟩ := create_toks_mk d1 c1 n1 ts
        have := ih hrest d1 c1 n1 h.2.1
        rw [hc2] at this ⊢
        exact ⟨h.1, this, h.2.2⟩
      · exact ⟨h.1, h.2.1, ih1 h.2.2⟩

theorem names_ok_foldl (listing : List (List Char)) :
    ∀ (d : List Char) (c nx : node), names_ok c →
      names_ok (listing.foldl create_entities (.mk d c nx)).child := by
  induction listing with
  | nil => intro d c nx h; exact h
  | cons p listing ih =>
    intro d c nx h
    obtain ⟨c1, hc1⟩ := create_toks_mk d c nx (tokens p)
    have h1 := names_ok_create_toks (tokens p) (tokens_ok p) d c nx h
    rw [List.foldl_cons, create_entities_eq, hc1]
    rw [hc1] at h1
    exact ih d c1 nx h1

/-- C11: slash normalisation.  Two paths with the same non-empty `/`-separated segments give
the same tree when inserted into any tree, and `get_node` returns the same node, or `NULL`
for both, on any tree. -/
theorem C11_slash_normalisation (fs_root : node) (p q : List Char)
    (h : segments p = segments q) :
    create_entities fs_root p = create_entities fs_root q ∧
      get_node fs_root p = get_node fs_root q := by
  rw [← tokens_eq_segments, ← tokens_eq_segments] at h
  simp only [create_entities_eq, get_node_eq, h, and_self]

/-- C11 at `//a///b/` and `a/b` on the tree of the listing `/a/c`. -/
theorem C11_slash_normalisation_witness :
    segments "//a///b/".toList = segments "a/b".toList ∧
      (create_entities (ingest ["/a/c".toList]) "//a///b/".toList =
          create_entities (ingest ["/a/c".toList]) "a/b".toList ∧
        get_node (ingest ["/a/c".toList]) "//a///b/".toList =
          get_node (ingest ["/a/c".toList]) "a/b".toList) :=
  ⟨by decide, C11_slash_normalisation (ingest ["/a/c".toList]) "//a///b/".toList "a/b".toList
    (by decide)⟩

/-- C13: no descent into a file.  When `p` resolves to a node without children, `get_node` on
`p/s` returns `NULL` for every `s` with at least one segment, and `ffs_getattr` reports no such
entry.  More generally `get_node` returns `NULL` for every path whose segments run through a
node that has no child named like the next segment. -/
theorem C13_no_descent_into_file :
    (∀ (root : node) (p s listing_file : List Char) (stbuf : stat),
      get_node root p ≠ .NULL → (get_node root p).child = .NULL → segments s ≠ [] →
        get_node root (p ++ '/' :: s) = .NULL ∧
          is_NotFound (ffs_getattr root listing_file (p ++ '/' :: s) stbuf)) ∧
    (∀ (root : node) (q a x : List Char) (rest : List (List Char)),
      segments q = segments a ++ x :: rest → x ∉ names (get_node root a).child →
        get_node root q = .NULL) := by
  have general : ∀ (root : node) (q a x : List Char) (rest : List (List Char)),
      segments q = segments a ++ x :: rest → x ∉ names (get_node root a).child →
        get_node root q = .NULL := by
    intro root q a x rest hq hx
    rw [← tokens_eq_segments, ← tokens_eq_segments] at hq
    rw [get_node_eq] at hx
    rw [get_node_eq, hq, get_node_toks_append, get_node_toks_cons,
      (get_child_loop_eq_NULL_iff x _).2 hx, get_node_toks_NULL]
  refine ⟨?_, general⟩
  intro root p s listing_file stbuf _ hleaf hs
  have h : get_node root (p ++ '/' :: s) = .NULL := by
    cases hseg : segments s with
    | nil => exact absurd hseg hs
    | cons x rest =>
      apply general root (p ++ '/' :: s) p x rest
      · rw [← tokens_eq_segments, tokens_append_slash, tokens_eq_segments, tokens_eq_segments,
          hseg]
      · rw [hleaf]
        simp [names]
  exact ⟨h, (is_NotFound_iff _ _ _ _).2 h⟩

/-- C13 at the listing `/a/b`: below the file `/a/b`, and below the missing `/a/x`. -/
theorem C13_no_descent_into_file_witness :
    (get_node (ingest ["/a/b".toList]) ("/a/b".toList ++ '/' :: "c/d".toList) = .NULL ∧
      is_NotFound (ffs_getattr (ingest ["/a/b".toList]) "l".toList
        ("/a/b".toList ++ '/' :: "c/d".toList) ⟨0, 0, 0, 0⟩)) ∧
    get_node (ingest ["/a/b".toList]) "/a/x/y".toList = .NULL :=
  ⟨C13_no_descent_into_file.1 (ingest ["/a/b".toList]) "/a/b".toList "c/d".toList "l".toList
      ⟨0, 0, 0, 0⟩ (by decide) (by decide) (by decide),
    C13_no_descent_into_file.2 (ingest ["/a/b".toList]) "/a/x/y".toList "/a".toList "x".toList
      ["y".toList] (by decide) (by decide)⟩

/-- C14: a path without segments is a no-op.  For every tree and every string of `/`
characters only, the empty string included, `create_entities` returns the tree unchanged, and
so does `parse_listing_file` for a record that holds such a string, with or without the
newline. -/
theorem C14_no_segment_no_op (fs_root : node) (p : List Char) (hp : ∀ c ∈ p, c = '/') :
    create_entities fs_root p = fs_root ∧
      parse_listing_file fs_root [p ++ ['\n']] = fs_root ∧
      parse_listing_file fs_root [p] = fs_root := by
  have h : create_entities fs_root p = fs_root := by
    rw [create_entities_eq, (tokens_eq_nil_iff p).2 hp]
    rfl
  have hc1 : chomp (p ++ ['\n']) = p := by
    simp [chomp]
  have hc2 : chomp p = p := by
    unfold chomp
    split
    · rename_i hl
      have := hp '\n' (List.mem_of_getLast?_eq_some hl)
      exact absurd this (by decide)
    · rfl
  refine ⟨h, ?_, ?_⟩
  · simp only [parse_listing_file, List.foldl_cons, List.foldl_nil, hc1, h]
  · simp only [parse_listing_file, List.foldl_cons, List.foldl_nil, hc2, h]

/-- C14 at the tree of the listing `/a/b` and the string `//`. -/
theorem C14_no_segment_no_op_witness :
    (∀ c ∈ "//".toList, c = '/') ∧
      (create_entities (ingest ["/a/b".toList]) "//".toList = ingest ["/a/b".toList] ∧
        parse_listing_file (ingest ["/a/b".toList]) ["//".toList ++ ['\n']] =
          ingest ["/a/b".toList] ∧
        parse_listing_file (ingest ["/a/b".toList]) ["//".toList] = ingest ["/a/b".toList]) :=
  ⟨by decide, C14_no_segment_no_op (ingest ["/a/b".toList]) "//".toList (by decide)⟩

/-- C15: in the tree built from any listing every node other than the root, that is every
node of the root's child chain and below, has a name that is non-empty and has no `/`. -/
theorem C15_node_names (listing : List (List Char)) : names_ok (ingest listing).child :=
  names_ok_foldl listing ['/'] .NULL .NULL trivial

/-! ## The children of a node after an insertion -/

theorem next_segment_nil_nil : next_segment [] [] = none := rfl

theorem next_segment_nil_cons (t : List Char) (ts : List (List Char)) :
    next_segment [] (t :: ts) = some t := by
  simp [next_segment]

theorem next_segment_cons_nil (u : List Char) (ds : List (List Char)) :
    next_segment (u :: ds) [] = none := by
  simp [next_segment]

theorem next_segment_cons_cons (u t : List Char) (ds ts : List (List Char)) :
    next_segment (u :: ds) (t :: ts) = if u = t then next_segment ds ts else none := by
  by_cases h : u = t
  · subst h
    simp [next_segment, List.cons_prefix_cons]
  · simp [next_segment, List.cons_prefix_cons, h]

theorem names_eq_nil_iff (c : node) : names c = [] ↔ c = .NULL := by
  cases c <;> simp [names]

theorem get_node_toks_congr_data (a b : node) (us : List (List Char)) (hc : a.child = b.child)
    (hd : a.data = b.data) :
    (get_node_toks a us).data = (get_node_toks b us).data := by
  cases us with
  | nil => exact hd
  | cons u us => simp [get_node_toks_cons, hc]

theorem get_node_toks_leaf_child (d : List Char) (nx : node) (us : List (List Char)) :
    (get_node_toks (.mk d .NULL nx) us).child = .NULL := by
  cases us with
  | nil => rfl
  | cons u us => simp [get_node_toks_cons, node.child, get_child_loop, get_node_toks_NULL]

theorem node_child_mk (d : List Char) (c nx : node) : (node.mk d c nx).child = c := rfl

theorem node_child_NULL : node.NULL.child = .NULL := rfl

theorem get_node_create (ts : List (List Char)) :
    ∀ (n : node) (ds : List (List Char)), n ≠ .NULL →
      (get_node_toks n ds ≠ .NULL →
        (get_node_toks (create_toks n ts) ds).data = (get_node_toks n ds).data) ∧
      names (get_node_toks (create_toks n ts) ds).child =
        add_first_seen (names (get_node_toks n ds).child) (next_segment ds ts) := by
  induction ts with
  | nil =>
    intro n ds _
    refine ⟨fun _ => rfl, ?_⟩
    cases ds with
    | nil => rfl
    | cons u ds => rw [next_segment_cons_nil]; rfl
  | cons t ts ih =>
    intro n ds hn
    cases n with
    | NULL => exact absurd rfl hn
    | mk d c nx =>
      rw [create_toks_cons]
      cases ds with
      | nil =>
        refine ⟨fun _ => rfl, ?_⟩
        simp only [get_node_toks, node_child_mk, next_segment_nil_cons, names_ins_chain,
          add_first_seen]
      | cons u ds =>
        simp only [get_node_toks_cons, node_child_mk, next_segment_cons_cons]
        clear hn
        induction c with
        | NULL =>
          obtain ⟨c1, hc1⟩ := create_toks_mk t .NULL .NULL ts
          have h0 := (ih (new_node t) ds (by simp [new_node])).2
          simp only [new_node, get_node_toks_leaf_child, names] at h0
          simp only [ins_chain, new_node]
          rw [hc1] at h0 ⊢
          by_cases htu : t = u
          · subst htu
            simp only [get_child_loop, if_true, get_node_toks_NULL, node_child_NULL, names]
            exact ⟨fun h => absurd rfl h, h0⟩
          · have hut : ¬ u = t := fun h => htu h.symm
            simp only [get_child_loop, htu, hut, if_false, get_node_toks_NULL, node_child_NULL,
              names, add_first_seen]
            exact ⟨fun h => absurd rfl h, trivial⟩
        | mk d1 c1 n1 _ ih1 =>
          simp only [ins_chain]
          by_cases hdt : d1 = t
          · subst hdt
            obtain ⟨c2, hc2⟩ := create_toks_mk d1 c1 n1 ts
            have h0 := ih (.mk d1 c1 n1) ds (by simp)
            simp only [if_true]
            by_cases hdu : d1 = u
            · subst hdu
              rw [hc2] at h0 ⊢
              simpa [get_child_loop] using h0
            · rw [hc2]
              have hud : ¬ u = d1 := fun h => hdu h.symm
              simp [get_child_loop, hdu, hud, add_first_seen]
          · simp only [hdt, if_false]
            by_cases hdu : d1 = u
            · subst hdu
              have h1 := (get_node_toks_congr (.mk d1 c1 (ins_chain n1 t ts)) (.mk d1 c1 n1) ds
                rfl (by simp) (by simp)).2
              have h2 := get_node_toks_congr_data (.mk d1 c1 (ins_chain n1 t ts))
                (.mk d1 c1 n1) ds rfl rfl
              simp only [get_child_loop, if_true, hdt, if_false, add_first_seen, h1, h2]
              exact ⟨fun _ => trivial, trivial⟩
            · simpa [get_child_loop, hdu] using ih1

theorem create_entities_ne_NULL (root : node) (p : List Char) (h : root ≠ .NULL) :
    create_entities root p ≠ .NULL := by
  cases root with
  | NULL => exact absurd rfl h
  | mk d c nx =>
    obtain ⟨c1, hc1⟩ := create_toks_mk d c nx (tokens p)
    simp [create_entities_eq, hc1]

theorem names_child_foldl (ds : List (List Char)) (listing : List (List Char)) :
    ∀ root : node, root ≠ .NULL →
      names (get_node_toks (listing.foldl create_entities root) ds).child =
        (listing.filterMap (fun p => next_segment ds (tokens p))).foldl
          (fun acc x => add_first_seen acc (some x)) (names (get_node_toks root ds).child) := by
  induction listing with
  | nil => intro root _; rfl
  | cons p listing ih =>
    intro root hroot
    rw [List.foldl_cons, ih _ (create_entities_ne_NULL root p hroot), create_entities_eq,
      (get_node_create (tokens p) root ds hroot).2]
    cases hn : next_segment ds (tokens p) with
    | none => simp [List.filterMap_cons, hn, add_first_seen]
    | some x => simp [List.filterMap_cons, hn]

theorem names_child_ingest (listing : List (List Char)) (d : List Char) :
    names (get_node (ingest listing) d).child = first_seen (following listing d) := by
  rw [get_node_eq]
  unfold ingest
  rw [names_child_foldl _ listing _ (by simp [new_node])]
  simp only [new_node, get_node_toks_leaf_child, names, first_seen, following,
    tokens_eq_segments]

theorem add_first_seen_extends (l : List (List Char)) (o : Option (List Char)) :
    l <+: add_first_seen l o := by
  cases o with
  | none => exact List.prefix_refl l
  | some x =>
    simp only [add_first_seen]
    split
    · exact List.prefix_refl l
    · exact List.prefix_append l [x]

theorem foldl_first_seen_extends (l : List (List Char)) :
    ∀ acc : List (List Char),
      acc <+: l.foldl (fun acc x => add_first_seen acc (some x)) acc := by
  induction l with
  | nil => intro acc; exact List.prefix_refl acc
  | cons x l ih =>
    intro acc
    exact (add_first_seen_extends acc (some x)).trans (ih _)

theorem first_seen_eq_nil_iff (l : List (List Char)) : first_seen l = [] ↔ l = [] := by
  constructor
  · intro h
    cases l with
    | nil => rfl
    | cons x l =>
      have hp := foldl_first_seen_extends l (add_first_seen [] (some x))
      simp only [first_seen, List.foldl_cons] at h
      rw [h] at hp
      simp [add_first_seen] at hp
  · rintro rfl
    rfl

theorem next_segment_eq_some_iff (ds ts : List (List Char)) :
    (∃ x, next_segment ds ts = some x) ↔ ds <+: ts ∧ ds ≠ ts := by
  induction ds generalizing ts with
  | nil =>
    cases ts with
    | nil => simp [next_segment_nil_nil]
    | cons t ts => simp [next_segment_nil_cons]
  | cons u ds ih =>
    cases ts with
    | nil => simp [next_segment_cons_nil]
    | cons t ts =>
      rw [next_segment_cons_cons, List.cons_prefix_cons]
      by_cases h : u = t
      · subst h
        simp [ih]
      · simp [h]

theorem child_ne_NULL_ingest (listing : List (List Char)) (q : List Char) :
    (get_node (ingest listing) q).child ≠ .NULL ↔
      ∃ p ∈ listing, segments q <+: segments p ∧ segments q ≠ segments p := by
  rw [Ne, ← names_eq_nil_iff, names_child_ingest, first_seen_eq_nil_iff, following]
  constructor
  · intro h
    cases hf : listing.filterMap (fun p => next_segment (segments q) (segments p)) with
    | nil => exact absurd hf h
    | cons x rest =>
      have hx : x ∈ listing.filterMap (fun p => next_segment (segments q) (segments p)) := by
        rw [hf]; simp
      rw [List.mem_filterMap] at hx
      obtain ⟨p, hp, hnext⟩ := hx
      exact ⟨p, hp, (next_segment_eq_some_iff _ _).1 ⟨x, hnext⟩⟩
  · rintro ⟨p, hp, hpre⟩ hnil
    obtain ⟨x, hx⟩ := (next_segment_eq_some_iff _ _).2 hpre
    have : x ∈ listing.filterMap (fun p => next_segment (segments q) (segments p)) :=
      List.mem_filterMap.2 ⟨p, hp, hx⟩
    rw [hnil] at this
    simp at this

theorem resolves_ingest_segments (listing : List (List Char)) (q : List Char) :
    get_node (ingest listing) q ≠ .NULL ↔
      segments q = [] ∨ ∃ p ∈ listing, segments q <+: segments p := by
  rw [get_node_eq, resolves_ingest]
  simp only [tokens_eq_segments]

theorem ffs_getattr_congr (r1 r2 : node) (listing_file path : List Char) (stbuf : stat)
    (h1 : get_node r1 path ≠ .NULL ↔ get_node r2 path ≠ .NULL)
    (h2 : (get_node r1 path).child ≠ .NULL ↔ (get_node r2 path).child ≠ .NULL) :
    ffs_getattr r1 listing_file path stbuf = ffs_getattr r2 listing_file path stbuf := by
  unfold ffs_getattr
  cases hn1 : get_node r1 path with
  | NULL =>
    cases hn2 : get_node r2 path with
    | NULL => rfl
    | mk d2 c2 n2 => rw [hn1, hn2] at h1; simp at h1
  | mk d1 c1 n1 =>
    cases hn2 : get_node r2 path with
    | NULL => rw [hn1, hn2] at h1; simp at h1
    | mk d2 c2 n2 =>
      rw [hn1, hn2] at h2
      simp only [node_child_mk] at h2
      cases c1 with
      | NULL =>
        cases c2 with
        | NULL => rfl
        | mk _ _ _ => simp at h2
      | mk _ _ _ =>
        cases c2 with
        | NULL => simp at h2
        | mk _ _ _ => rfl

theorem names_snoc (x : List Char) : ∀ c : node, names (snoc c x) = names c ++ [x] := by
  intro c
  induction c with
  | NULL => rfl
  | mk d c1 n1 _ ih => simp [snoc, names, ih]

theorem ffs_readdir_names (fs_root : node) (listing_file path : List Char) (file_stat : stat)
    (hdir : (get_node fs_root path).child ≠ .NULL) (r : Int × List (List Char × stat))
    (h : ffs_readdir fs_root listing_file path file_stat = some r) :
    r.1 = 0 ∧ r.2.map Prod.fst = names (get_node fs_root path).child := by
  by_cases hfit : ∀ d ∈ names (get_node fs_root path).child,
      (strtok_r_str path ++ '/' :: d).length < 2048
  · obtain ⟨es, hes, hn⟩ := ffs_readdir_dir fs_root listing_file path file_stat hdir hfit
    rw [hes] at h
    simp only [Option.some.injEq] at h
    subst h
    exact ⟨rfl, hn⟩
  · have hover : ∃ d ∈ names (get_node fs_root path).child,
        2048 ≤ (strtok_r_str path ++ '/' :: d).length := by
      by_contra hno
      apply hfit
      intro d hd
      by_contra hlen
      exact hno ⟨d, hd, by omega⟩
    rw [ffs_readdir_overrun fs_root listing_file path file_stat hover] at h
    exact absurd h (by simp)

/-- Children in first-seen order.  For every listing and every path `d`, the names along the
child chain of the node of `d`, which are the names `ffs_readdir` walks over, are the segments
that follow `d` in the listed paths strictly extending `d`, in listing order, each at its first
occurrence.  For a directory `d`, `ffs_readdir` hands out exactly these names whenever it has a
defined result, and it has one when every child path fits `filepath[2048]`.  And `add_child`
puts the new name behind all names already there. -/
theorem children_first_seen (listing : List (List Char)) (d listing_file : List Char)
    (stbuf file_stat : stat) :
    names (get_node (ingest listing) d).child = first_seen (following listing d) ∧
    (is_Directory (ffs_getattr (ingest listing) listing_file d stbuf) →
      (∀ r, ffs_readdir (ingest listing) listing_file d file_stat = some r →
        r.1 = 0 ∧ r.2.map Prod.fst = first_seen (following listing d)) ∧
      ((∀ c ∈ first_seen (following listing d), (strtok_r_str d ++ '/' :: c).length < 2048) →
        ∃ es, ffs_readdir (ingest listing) listing_file d file_stat = some (0, es) ∧
          es.map Prod.fst = first_seen (following listing d))) ∧
    (∀ (n : node) (x : List Char), n ≠ .NULL →
      names (add_child n x).child = names n.child ++ [x]) := by
  have hnames := names_child_ingest listing d
  refine ⟨hnames, ?_, ?_⟩
  · intro hdir
    rw [is_Directory_iff] at hdir
    constructor
    · intro r hr
      rw [← hnames]
      exact ffs_readdir_names _ _ _ _ hdir r hr
    · intro hfit
      rw [← hnames] at hfit ⊢
      exact ffs_readdir_dir _ _ _ _ hdir hfit
  · intro n x hn
    cases n with
    | NULL => exact absurd rfl hn
    | mk d1 c nx => rw [add_child_eq, node_child_mk, node_child_mk, names_snoc]

/-- The listing `/a/c/x`, `/a/b`, `/a/c/y`, `/z` and the directory `/a`, whose children are `c`,
`b` in this order. -/
theorem children_first_seen_example :
    names (get_node (ingest ["/a/c/x".toList, "/a/b".toList, "/a/c/y".toList, "/z".toList])
        "/a".toList).child = ["c".toList, "b".toList] ∧
      first_seen (following ["/a/c/x".toList, "/a/b".toList, "/a/c/y".toList, "/z".toList]
        "/a".toList) = ["c".toList, "b".toList] ∧
      ∃ es, ffs_readdir (ingest ["/a/c/x".toList, "/a/b".toList, "/a/c/y".toList, "/z".toList])
          "l".toList "/a".toList ⟨0, 0, 0, 0⟩ = some (0, es) ∧
        es.map Prod.fst = first_seen
          (following ["/a/c/x".toList, "/a/b".toList, "/a/c/y".toList, "/z".toList] "/a".toList) :=
  ⟨by decide, by decide,
    ((children_first_seen ["/a/c/x".toList, "/a/b".toList, "/a/c/y".toList, "/z".toList]
      "/a".toList "l".toList ⟨0, 0, 0, 0⟩ ⟨0, 0, 0, 0⟩).2.1
        (by rw [is_Directory_iff]; decide)).2 (by decide)⟩

/-- C16: the namespace of a listing.  For a path `q` with at least one segment, `get_node`
succeeds exactly when the segments of `q` are a prefix of the segments of a listed path;
`ffs_getattr` reports a directory exactly when they are a strict prefix of some listed path's
segments, and a file exactly when they equal some listed path's segments and are a strict
prefix of none.  The result of `ffs_getattr` on any path is the same for every permutation of
the listing. -/
theorem C16_namespace (listing : List (List Char)) (q listing_file : List Char) (stbuf : stat)
    (hq : segments q ≠ []) :
    (get_node (ingest listing) q ≠ .NULL ↔ ∃ p ∈ listing, segments q <+: segments p) ∧
    (is_Directory (ffs_getattr (ingest listing) listing_file q stbuf) ↔
      ∃ p ∈ listing, segments q <+: segments p ∧ segments q ≠ segments p) ∧
    (is_File (ffs_getattr (ingest listing) listing_file q stbuf) ↔
      (∃ p ∈ listing, segments q = segments p) ∧
        ¬ ∃ p ∈ listing, segments q <+: segments p ∧ segments q ≠ segments p) ∧
    (∀ (listing1 : List (List Char)) (path : List Char), listing.Perm listing1 →
      ffs_getattr (ingest listing1) listing_file path stbuf =
        ffs_getattr (ingest listing) listing_file path stbuf) := by
  have hres : get_node (ingest listing) q ≠ .NULL ↔
      ∃ p ∈ listing, segments q <+: segments p := by
    rw [resolves_ingest_segments]
    exact ⟨fun h => h.resolve_left hq, Or.inr⟩
  refine ⟨hres, ?_, ?_, ?_⟩
  · rw [is_Directory_iff, child_ne_NULL_ingest]
  · rw [is_File_iff, hres]
    have hchild := child_ne_NULL_ingest listing q
    constructor
    · rintro ⟨⟨p, hp, hpre⟩, hleaf⟩
      have hnot : ¬ ∃ p ∈ listing, segments q <+: segments p ∧ segments q ≠ segments p :=
        fun h => (hchild.2 h) hleaf
      refine ⟨⟨p, hp, ?_⟩, hnot⟩
      by_contra hne
      exact hnot ⟨p, hp, hpre, hne⟩
    · rintro ⟨⟨p, hp, heq⟩, hnot⟩
      refine ⟨⟨p, hp, heq ▸ List.prefix_refl _⟩, ?_⟩
      by_contra hne
      exact hnot (hchild.1 hne)
  · intro listing1 path hperm
    apply ffs_getattr_congr
    · rw [resolves_ingest_segments, resolves_ingest_segments]
      constructor
      · rintro (h | ⟨p, hp, hpre⟩)
        · exact Or.inl h
        · exact Or.inr ⟨p, hperm.mem_iff.2 hp, hpre⟩
      · rintro (h | ⟨p, hp, hpre⟩)
        · exact Or.inl h
        · exact Or.inr ⟨p, hperm.mem_iff.1 hp, hpre⟩
    · rw [child_ne_NULL_ingest, child_ne_NULL_ingest]
      constructor
      · rintro ⟨p, hp, hpre⟩
        exact ⟨p, hperm.mem_iff.2 hp, hpre⟩
      · rintro ⟨p, hp, hpre⟩
        exact ⟨p, hperm.mem_iff.1 hp, hpre⟩

/-- C16 at the listing `/a/b`, `/a`, `/c` and the path `/a`. -/
theorem C16_namespace_witness :
    segments "/a".toList ≠ [] ∧
    ((get_node (ingest ["/a/b".toList, "/a".toList, "/c".toList]) "/a".toList ≠ .NULL ↔
      ∃ p ∈ ["/a/b".toList, "/a".toList, "/c".toList], segments "/a".toList <+: segments p) ∧
    (is_Directory (ffs_getattr (ingest ["/a/b".toList, "/a".toList, "/c".toList]) "l".toList
        "/a".toList ⟨0, 0, 0, 0⟩) ↔
      ∃ p ∈ ["/a/b".toList, "/a".toList, "/c".toList],
        segments "/a".toList <+: segments p ∧ segments "/a".toList ≠ segments p) ∧
    (is_File (ffs_getattr (ingest ["/a/b".toList, "/a".toList, "/c".toList]) "l".toList
        "/a".toList ⟨0, 0, 0, 0⟩) ↔
      (∃ p ∈ ["/a/b".toList, "/a".toList, "/c".toList], segments "/a".toList = segments p) ∧
        ¬ ∃ p ∈ ["/a/b".toList, "/a".toList, "/c".toList],
          segments "/a".toList <+: segments p ∧ segments "/a".toList ≠ segments p) ∧
    (∀ (listing1 : List (List Char)) (path : List Char),
      ["/a/b".toList, "/a".toList, "/c".toList].Perm listing1 →
      ffs_getattr (ingest listing1) "l".toList path ⟨0, 0, 0, 0⟩ =
        ffs_getattr (ingest ["/a/b".toList, "/a".toList, "/c".toList]) "l".toList path
          ⟨0, 0, 0, 0⟩)) :=
  ⟨by decide, C16_namespace ["/a/b".toList, "/a".toList, "/c".toList] "/a".toList "l".toList
    ⟨0, 0, 0, 0⟩ (by decide)⟩

/-- C17: insertion is monotone.  When `get_node` finds `q` in a tree, it finds `q` after any
`create_entities` as well, at a node with the same name; the names of that node's children
before the insertion are an initial part of the names afterwards, so a node with children
keeps them in their order and a directory stays a directory. -/
theorem C17_insertion_monotone (fs_root : node) (p q listing_file : List Char) (stbuf : stat)
    (h : get_node fs_root q ≠ .NULL) :
    get_node (create_entities fs_root p) q ≠ .NULL ∧
    (get_node (create_entities fs_root p) q).data = (get_node fs_root q).data ∧
    names (get_node fs_root q).child <+: names (get_node (create_entities fs_root p) q).child ∧
    (is_Directory (ffs_getattr fs_root listing_file q stbuf) →
      is_Directory (ffs_getattr (create_entities fs_root p) listing_file q stbuf)) := by
  have hroot : fs_root ≠ .NULL := by
    intro h0
    rw [h0, get_node_eq, get_node_toks_NULL] at h
    exact h rfl
  have hpre : names (get_node fs_root q).child <+:
      names (get_node (create_entities fs_root p) q).child := by
    rw [get_node_eq, get_node_eq, create_entities_eq,
      (get_node_create (tokens p) fs_root (tokens q) hroot).2]
    exact add_first_seen_extends _ _
  refine ⟨?_, ?_, hpre, ?_⟩
  · rw [get_node_eq, create_entities_eq, resolves_create _ _ _ hroot]
    rw [get_node_eq] at h
    exact Or.inl h
  · rw [get_node_eq, get_node_eq, create_entities_eq]
    rw [get_node_eq] at h
    exact (get_node_create (tokens p) fs_root (tokens q) hroot).1 h
  · rw [is_Directory_iff, is_Directory_iff]
    intro hc hc1
    rw [hc1] at hpre
    simp only [names, List.prefix_nil] at hpre
    exact hc ((names_eq_nil_iff _).1 hpre)

/-- C17 at the tree of the listing `/a/b`, the insertion of `/a/c`, and the path `/a`. -/
theorem C17_insertion_monotone_witness :
    get_node (ingest ["/a/b".toList]) "/a".toList ≠ .NULL ∧
    (get_node (create_entities (ingest ["/a/b".toList]) "/a/c".toList) "/a".toList ≠ .NULL ∧
    (get_node (create_entities (ingest ["/a/b".toList]) "/a/c".toList) "/a".toList).data =
      (get_node (ingest ["/a/b".toList]) "/a".toList).data ∧
    names (get_node (ingest ["/a/b".toList]) "/a".toList).child <+:
      names (get_node (create_entities (ingest ["/a/b".toList]) "/a/c".toList)
        "/a".toList).child ∧
    (is_Directory (ffs_getattr (ingest ["/a/b".toList]) "l".toList "/a".toList ⟨0, 0, 0, 0⟩) →
      is_Directory (ffs_getattr (create_entities (ingest ["/a/b".toList]) "/a/c".toList)
        "l".toList "/a".toList ⟨0, 0, 0, 0⟩))) :=
  ⟨by decide, C17_insertion_monotone (ingest ["/a/b".toList]) "/a/c".toList "/a".toList
    "l".toList ⟨0, 0, 0, 0⟩ (by decide)⟩

/-! ## Size reported and bytes read -/

theorem st_size_of_file (fs_root : node) (listing_file path : List Char) (stbuf : stat)
    (h : is_File (ffs_getattr fs_root listing_file path stbuf)) :
    (ffs_getattr fs_root listing_file path stbuf).2.st_size =
      path.length + listing_file.length + " is in ".length := by
  rw [is_File_iff] at h
  obtain ⟨hne, hleaf⟩ := h
  unfold ffs_getattr
  cases hn : get_node fs_root path with
  | NULL => exact absurd hn hne
  | mk d c nx =>
    rw [hn, node_child_mk] at hleaf
    subst hleaf
    rfl

theorem st_size_matches_read (ptr_int : Int) (fs_root : node) (listing_file path : List Char)
    (stbuf : stat) (size : Nat) (hfile : is_File (ffs_getattr fs_root listing_file path stbuf))
    (hfit : (path ++ " is in ".toList ++ listing_file).length < 2048) (hptr : ptr_int ≠ 0)
    (hsize : (ffs_getattr fs_root listing_file path stbuf).2.st_size ≤ size)
    (h64 : size < 2 ^ 64) :
    ffs_read ptr_int fs_root listing_file path size 0 =
      some (((ffs_getattr fs_root listing_file path stbuf).2.st_size : Int),
        path ++ " is in ".toList ++ listing_file) := by
  have hsz := st_size_of_file fs_root listing_file path stbuf hfile
  rw [hsz] at hsize ⊢
  have hne := ((is_File_iff _ _ _ _).1 hfile).1
  have hlen : (path ++ " is in ".toList ++ listing_file).length =
      path.length + listing_file.length + " is in ".length := by
    have h7 : " is in ".toList.length = 7 := by decide
    have h8 : " is in ".length = 7 := by decide
    simp only [List.length_append, h7, h8]
    omega
  have := ffs_read_in_range ptr_int fs_root listing_file path size 0 hfit hne hptr
    (Int.le_refl 0) (by simp only [Int.toNat_zero]; omega)
  simp only [Int.toNat_zero, List.drop_zero] at this
  rw [List.take_of_length_le (by omega)] at this
  rw [this, hlen]

/-- C18, at the failing input: the listing holds one path of 2048 characters.  It is a file for
`ffs_getattr`, which reports `2048 + |listing_file| + 7` as its size, but `ffs_read` at offset 0
has no defined result for any length and any value of the pointer conversion, because `sprintf`
overruns `data[2048]`. -/
theorem C18_size_without_content (ptr_int : Int) (listing_file : List Char) (size : Nat)
    (stbuf : stat) :
    is_File (ffs_getattr (ingest ['/' :: List.replicate 2047 'a']) listing_file
        ('/' :: List.replicate 2047 'a') stbuf) ∧
      (ffs_getattr (ingest ['/' :: List.replicate 2047 'a']) listing_file
        ('/' :: List.replicate 2047 'a') stbuf).2.st_size = 2048 + listing_file.length + 7 ∧
      ffs_read ptr_int (ingest ['/' :: List.replicate 2047 'a']) listing_file
        ('/' :: List.replicate 2047 'a') size 0 = none := by
  have hfile : is_File (ffs_getattr (ingest ['/' :: List.replicate 2047 'a']) listing_file
      ('/' :: List.replicate 2047 'a') stbuf) := by
    rw [is_File_iff, get_node_eq]
    simp only [ingest, List.foldl_cons, List.foldl_nil, create_entities_eq, new_node]
    exact get_node_create_leaf _ _ _
  refine ⟨hfile, ?_, ?_⟩
  · rw [st_size_of_file _ _ _ _ hfile]
    simp only [List.length_cons, List.length_replicate]
    rfl
  · apply ffs_read_overrun
    simp only [List.length_append, List.length_cons, List.length_replicate]
    omega

/-! ## The path buffer after `get_node` -/

theorem dropWhile_slashes_append (pre y : List Char) (hpre : ∀ c ∈ pre, c = '/') :
    (pre ++ y).dropWhile (fun c => c == '/') = y.dropWhile (fun c => c == '/') := by
  induction pre with
  | nil => rfl
  | cons c pre ih =>
    have hc : c = '/' := hpre c (by simp)
    subst hc
    simpa [List.dropWhile_cons] using ih (fun c hc => hpre c (by simp [hc]))

theorem takeWhile_slashes_append (pre y : List Char) (hpre : ∀ c ∈ pre, c = '/') :
    (pre ++ y).takeWhile (fun c => c == '/') = pre ++ y.takeWhile (fun c => c == '/') := by
  induction pre with
  | nil => rfl
  | cons c pre ih =>
    have hc : c = '/' := hpre c (by simp)
    subst hc
    simpa [List.takeWhile_cons] using ih (fun c hc => hpre c (by simp [hc]))

theorem strtok_r_str_cut (pre x rest : List Char) (hpre : ∀ c ∈ pre, c = '/') (hne : x ≠ [])
    (hx : '/' ∉ x) :
    strtok_r_str (pre ++ x ++ '/' :: rest) = pre ++ x := by
  cases x with
  | nil => exact absurd rfl hne
  | cons c s =>
    have hc : c ≠ '/' := fun h => hx (by simp [h])
    have hs : '/' ∉ s := fun h => hx (by simp [h])
    have htok : strtok_r (pre ++ (c :: s) ++ '/' :: rest) =
        some (c :: s, rest) := by
      rw [List.append_assoc]
      unfold strtok_r
      rw [dropWhile_slashes_append _ _ hpre]
      simp only [List.cons_append, List.dropWhile_cons, List.takeWhile_cons, hc, beq_iff_eq,
        bne_iff_ne, ne_eq, not_false_eq_true, if_false, if_true, decide_True, decide_False,
        takeWhile_append_slash, dropWhile_append_slash, takeWhile_no_slash s hs,
        dropWhile_no_slash s hs]
      simp
    unfold strtok_r_str
    rw [htok, List.append_assoc, takeWhile_slashes_append _ _ hpre]
    simp [List.takeWhile_cons, hc]

theorem strtok_r_str_whole (pre x : List Char) (hpre : ∀ c ∈ pre, c = '/') (hne : x ≠ [])
    (hx : '/' ∉ x) :
    strtok_r_str (pre ++ x) = pre ++ x := by
  cases x with
  | nil => exact absurd rfl hne
  | cons c s =>
    have hc : c ≠ '/' := fun h => hx (by simp [h])
    have htok : strtok_r (pre ++ c :: s) = some (c :: s, []) := by
      unfold strtok_r
      rw [dropWhile_slashes_append _ _ hpre]
      have := strtok_r_segment (c :: s) hne hx
      unfold strtok_r at this
      exact this
    unfold strtok_r_str
    rw [htok, takeWhile_slashes_append _ _ hpre]
    simp [List.takeWhile_cons, hc]

theorem ffs_readdir_first_entry (fs_root : node) (listing_file path : List Char)
    (file_stat st : stat) (c : List Char) (rest : List (List Char × stat))
    (h : ffs_readdir fs_root listing_file path file_stat = some (0, (c, st) :: rest)) :
    st = (ffs_getattr fs_root listing_file (strtok_r_str path ++ '/' :: c) file_stat).2 := by
  unfold ffs_readdir at h
  cases hn : get_node fs_root path with
  | NULL => simp [hn, ENOTDIR] at h
  | mk d0 c0 n0 =>
    cases c0 with
    | NULL => simp [hn, ENOTDIR] at h
    | mk d1 c1 n1 =>
      simp only [hn] at h
      cases hl : ffs_readdir_loop fs_root listing_file (strtok_r_str path) (.mk d1 c1 n1)
          file_stat with
      | none => simp [hl] at h
      | some es =>
        simp only [hl, Option.some.injEq, Prod.mk.injEq, true_and] at h
        subst h
        simp only [ffs_readdir_loop] at hl
        by_cases hov : 2048 ≤ (strtok_r_str path ++ '/' :: d1).length
        · simp only [hov, if_true] at hl
          exact absurd hl (by simp)
        · simp only [hov, if_false] at hl
          cases hr : ffs_readdir_loop fs_root listing_file (strtok_r_str path) n1
              (ffs_getattr fs_root listing_file (strtok_r_str path ++ '/' :: d1) file_stat).2 with
          | none => simp [hr] at hl
          | some es1 =>
            simp only [hr, Option.some.injEq, List.cons.injEq, Prod.mk.injEq] at hl
            rw [← hl.1.1, ← hl.1.2]

/-- C19, at the failing input: the listing `/a/b/c.txt`, `/a/c/e.dat`, `/a/c/f.mp4` and the
directory `/a/c`.  After `get_node` the path buffer reads `/a`, so `ffs_readdir` asks
`ffs_getattr` for `/a/e.dat` and `/a/f.mp4`, which do not exist, ignores the error and hands the
untouched local `file_stat` to `filler` for both children, whereas `ffs_getattr` on the
child's own path `/a/c/e.dat` reports a regular file of 24 bytes. -/
theorem C19_readdir_stat_of_cut_path (file_stat : stat) :
    strtok_r_str "/a/c".toList = "/a".toList ∧
    ffs_readdir (ingest ["/a/b/c.txt".toList, "/a/c/e.dat".toList, "/a/c/f.mp4".toList])
        "listing".toList "/a/c".toList file_stat =
      some (0, [("e.dat".toList, file_stat), ("f.mp4".toList, file_stat)]) ∧
    ffs_getattr (ingest ["/a/b/c.txt".toList, "/a/c/e.dat".toList, "/a/c/f.mp4".toList])
        "listing".toList "/a/e.dat".toList file_stat = (-ENOENT, file_stat) ∧
    ffs_getattr (ingest ["/a/b/c.txt".toList, "/a/c/e.dat".toList, "/a/c/f.mp4".toList])
        "listing".toList ("/a/c".toList ++ '/' :: "e.dat".toList) file_stat =
      (0, { file_stat with st_ino := 2, st_mode := S_IFREG ||| 0o444, st_nlink := 1,
                           st_size := 24 }) := by
  refine ⟨by decide, ?_, ?_, ?_⟩
  · rfl
  · rfl
  · rfl

/-! ## Children with names too long for the path buffer -/

theorem long_names_child (a b : List Char) (ha : a ≠ []) (hsa : '/' ∉ a) (hb : b ≠ [])
    (hsb : '/' ∉ b) :
    (get_node (ingest [('/' :: a) ++ '/' :: b]) ('/' :: a)).child = new_node b := by
  have hdir : tokens ('/' :: a) = [a] := by
    rw [tokens_slash, tokens_segment _ ha hsa]
  have hlong : tokens (('/' :: a) ++ '/' :: b) = [a] ++ [b] := by
    rw [tokens_append _ _ hb hsb, hdir]
  rw [get_node_eq, hdir]
  simp only [ingest, List.foldl_cons, List.foldl_nil, create_entities_eq, hlong, new_node]
  exact child_create_leaf_snoc _ _ _ _

/-- C12, at the failing input: the listing holds one path, a directory name of 1024 `a` with a
child name of 1024 `b`.  The directory is a directory for `ffs_getattr`; the sequence of first
seen following segments is the one name of 1024 `b`, and that is the name in the child chain;
but `ffs_readdir` reports no name at all: `sprintf` overruns `filepath[2048]` on the first child
and the call has no defined result. -/
theorem C12_children_not_reported (listing_file : List Char) (stbuf file_stat : stat) :
    is_Directory (ffs_getattr
        (ingest [('/' :: List.replicate 1024 'a') ++ '/' :: List.replicate 1024 'b'])
        listing_file ('/' :: List.replicate 1024 'a') stbuf) ∧
      first_seen (following [('/' :: List.replicate 1024 'a') ++ '/' :: List.replicate 1024 'b']
        ('/' :: List.replicate 1024 'a')) = [List.replicate 1024 'b'] ∧
      names (get_node
        (ingest [('/' :: List.replicate 1024 'a') ++ '/' :: List.replicate 1024 'b'])
        ('/' :: List.replicate 1024 'a')).child = [List.replicate 1024 'b'] ∧
      ffs_readdir (ingest [('/' :: List.replicate 1024 'a') ++ '/' :: List.replicate 1024 'b'])
        listing_file ('/' :: List.replicate 1024 'a') file_stat = none := by
  have ha : List.replicate 1024 'a' ≠ [] :=
    List.ne_nil_of_length_pos (by rw [List.length_replicate]; omega)
  have hb : List.replicate 1024 'b' ≠ [] :=
    List.ne_nil_of_length_pos (by rw [List.length_replicate]; omega)
  have hsa : '/' ∉ List.replicate 1024 'a' := by
    intro h
    exact absurd (List.eq_of_mem_replicate h) (by decide)
  have hsb : '/' ∉ List.replicate 1024 'b' := by
    intro h
    exact absurd (List.eq_of_mem_replicate h) (by decide)
  have hlong := ffs_readdir_long_names _ _ listing_file stbuf file_stat ha hsa hb hsb
    (by rw [List.length_replicate, List.length_replicate]; omega)
  have hnames : names (get_node
      (ingest [('/' :: List.replicate 1024 'a') ++ '/' :: List.replicate 1024 'b'])
      ('/' :: List.replicate 1024 'a')).child = [List.replicate 1024 'b'] := by
    rw [long_names_child _ _ ha hsa hb hsb]
    rfl
  refine ⟨hlong.1, ?_, hnames, hlong.2⟩
  rw [← names_child_ingest, hnames]

end Filefs
